import Mathlib

/-!
# igcopy: a shallow embedding of `main.go` and its specification

The program walks an input tree, copies every file with an image extension to the mirrored
place under an output root and records the copied base names in a per-directory SQLite store
(`igcopy.db`).  This file embeds the program as Lean functions over an explicit world state
and settles the claims of the specification against that embedding.

Modelling conventions.

* A path is the list of its components, the form `filepath.Clean` gives it, taken from one
  fixed place of the file system; `[]` is that place itself (`"."`).  `filepath.Join` is
  concatenation, `filepath.Dir` drops the last component, `filepath.Base` is the last one.
  `pathString` gives back the text the program sees; `isImage` works on that text.
* The file system is a tree of directories and regular files.  Symbolic links, hard links,
  permissions and faults of the device are outside the model: an operation fails exactly
  when the shape of the tree makes it fail.
* A file holds either plain bytes or a SQLite database with the table `files`, of which only
  the list of recorded names is kept.
* The world carries, next to the file system, what the program prints and a record of the
  calls of `copyFile`, `registerFileInDB`, `sql.Open` and `db.Close`.
* A handle of a store stands for the store file at its path: every statement reads and
  writes what the file system holds there.
* `filepath.WalkDir` recurses on what it reads from the file system while the callback
  changes it; the recursion is driven by a fuel argument, `none` meaning that it ran out.
  With the output root under the input root a walk can meet its own copies, so the theorems
  that need a walk to end take the two roots apart or a tree that the walk leaves as it is.
-/

namespace Igcopy

/-! ## Strings and paths -/

/-- Cleaned path, as the list of its components. -/
abbrev Path := List String

/-- Helper of `pathString`: appends the remaining components, each after a separator. -/
def joinSep : String → List String → String
  | acc, [] => acc
  | acc, y :: ys => joinSep (acc ++ "/" ++ y) ys

/-- Text of a cleaned path: components joined by the separator, `"."` for the empty path. -/
def pathString : Path → String
  | [] => "."
  | x :: xs => joinSep x xs

/-- Helper of `filepathExt`: the loop of `filepath.Ext`, which scans the bytes of the path
from the last one backwards, stops at a separator and returns the text from the first dot
it meets.  The first argument is what is left to scan (reversed), the second what has been
scanned. -/
def extAux : List Char → List Char → List Char
  | [], _ => []
  | c :: rest, acc =>
    if c = '/' then [] else if c = '.' then '.' :: acc else extAux rest (c :: acc)

/-- Go `filepath.Ext` (separator `/`). -/
def filepathExt (path : String) : String := ⟨extAux path.data.reverse []⟩

/-- Go `unicode.ToLower` as far as `isImage` can observe it: the upper-case ASCII letters and
the two other runes whose lower case is an ASCII letter (U+0130 and U+212A).  Every other
rune has a lower case outside ASCII and is left as it is here. -/
def toLowerRune (c : Char) : Char :=
  if 'A' ≤ c ∧ c ≤ 'Z' then Char.ofNat (c.toNat + 32)
  else if c = Char.ofNat 0x130 then 'i'
  else if c = Char.ofNat 0x212A then 'k'
  else c

/-- Go `strings.ToLower`. -/
def stringsToLower (s : String) : String := ⟨s.data.map toLowerRune⟩

/-- Keys of the map `imageExts` (every key is mapped to `true`). -/
def imageExts : List String :=
  [".jpg", ".jpeg", ".png", ".gif", ".bmp", ".webp", ".tiff", ".tif", ".heic"]

/-- Source `isImage`: lower-cases the extension and looks it up in `imageExts`. -/
def isImage (path : String) : Bool :=
  imageExts.contains (stringsToLower (filepathExt path))

/-- Go `filepath.Join` on cleaned paths; the relative path `"."` is `[]`. -/
def filepathJoin (a b : Path) : Path := a ++ b

/-- Go `filepath.Dir` on cleaned paths. -/
def filepathDir (p : Path) : Path := p.dropLast

/-- Go `filepath.Base` on cleaned paths. -/
def filepathBase (p : Path) : String := p.getLast?.getD "."

/-- Go `filepath.Rel base target` for a target that lies under the base, the only case
`filepath.WalkDir` produces; any other target takes the error return. -/
def filepathRel : Path → Path → Option Path
  | [], t => some t
  | _ :: _, [] => none
  | b :: bs, t :: ts => if b = t then filepathRel bs ts else none

/-! ## File system -/

/-- What a regular file holds: plain bytes, or a SQLite database with table `files`
recording the given names. -/
inductive Content where
  | raw (bytes : List Nat)
  | ledger (names : List String)
  deriving DecidableEq, Repr

/-- Node of the file-system tree. -/
inductive Node where
  | file (c : Content)
  | dir (kids : List (String × Node))

/-- What `stat` tells about a path. -/
inductive Kind where
  | dir
  | file (c : Content)
  deriving DecidableEq, Repr

/-- Reasons for which an operation of the operating system or of SQLite fails. -/
inductive Cause where
  | notExist
  | notDir
  | isDir
  | notDatabase
  | noTable
  | constraint
  deriving DecidableEq, Repr

/-- Errors returned by the callback of `run`, one constructor for each `return` of an error.
`nilEntry` stands for the use of a nil entry, which `filepath.WalkDir` passes only together
with an error, so that the callback returns before it uses the entry. -/
inductive Error where
  | walk (c : Cause)
  | nilEntry
  | rel
  | mkdir (destDir : Path) (c : Cause)
  | openDb (dbPath : Path) (c : Cause)
  | initDb (dbPath : Path) (c : Cause)
  | check (fileName : String) (c : Cause)
  | copy (destPath : Path) (c : Cause)
  | register (fileName : String) (c : Cause)
  deriving DecidableEq, Repr

/-- First entry of a directory with the given name. -/
def findKid (x : String) : List (String × Node) → Option Node
  | [] => none
  | (y, n) :: rest => if y = x then some n else findKid x rest

/-- Replaces the entry with the given name, or adds it. -/
def putKid (x : String) (n : Node) : List (String × Node) → List (String × Node)
  | [] => [(x, n)]
  | (y, m) :: rest => if y = x then (x, n) :: rest else (y, m) :: putKid x n rest

/-- Node reached from a node along a path. -/
def Node.get : Node → Path → Option Node
  | n, [] => some n
  | .file _, _ :: _ => none
  | .dir kids, x :: xs =>
    match findKid x kids with
    | none => none
    | some k => k.get xs

/-- Kind of a node. -/
def Node.kind : Node → Kind
  | .file c => .file c
  | .dir _ => .dir

/-- Result of `os.Stat` / `os.Lstat`: `none` when nothing is at the path. -/
def stat (fs : Node) (p : Path) : Option Kind := (fs.get p).map Node.kind

/-- Creates the directories of a path that are missing, from the top down. -/
def mkdirPath : Node → Path → Except Cause Node
  | .file _, _ => .error .notDir
  | .dir kids, [] => .ok (.dir kids)
  | .dir kids, x :: xs =>
    match mkdirPath ((findKid x kids).getD (.dir [])) xs with
    | .error c => .error c
    | .ok k => .ok (.dir (putKid x k kids))

/-- Go `os.MkdirAll`: nothing to do when the path is a directory, an error when it is a
file, otherwise the missing directories are created. -/
def osMkdirAll (fs : Node) (p : Path) : Except Cause Node :=
  match stat fs p with
  | some .dir => .ok fs
  | some (.file _) => .error .notDir
  | none => mkdirPath fs p

/-- Puts a regular file with the given content at a path: the parent has to be a directory
and the path itself must not be one. -/
def writeAt (c : Content) : Node → Path → Except Cause Node
  | .file _, [] => .ok (.file c)
  | .dir _, [] => .error .isDir
  | .file _, _ :: _ => .error .notDir
  | .dir kids, x :: xs =>
    match xs with
    | [] =>
      match findKid x kids with
      | some (.dir _) => .error .isDir
      | _ => .ok (.dir (putKid x (.file c) kids))
    | _ :: _ =>
      match findKid x kids with
      | none => .error .notExist
      | some k =>
        match writeAt c k xs with
        | .error e => .error e
        | .ok k1 => .ok (.dir (putKid x k1 kids))

/-- Entry of a directory as `os.ReadDir` returns it. -/
structure DirEntry where
  name : String
  isDir : Bool
  deriving DecidableEq, Repr

/-- Order of strings by their bytes, which for UTF-8 is the order by code points. -/
def ltChars : List Char → List Char → Bool
  | _, [] => false
  | [], _ :: _ => true
  | a :: as, b :: bs =>
    if a.toNat < b.toNat then true
    else if b.toNat < a.toNat then false
    else ltChars as bs

/-- Inserts a name into a sorted list of names, unless it is there. -/
def insertName (n : String) : List String → List String
  | [] => [n]
  | m :: ms =>
    if n = m then m :: ms
    else if ltChars n.data m.data then n :: m :: ms
    else m :: insertName n ms

/-- Sorts names and drops repetitions. -/
def sortNames : List String → List String
  | [] => []
  | n :: ns => insertName n (sortNames ns)

/-- Whether an entry found in a directory is itself a directory. -/
def isDirNode : Option Node → Bool
  | some (.dir _) => true
  | _ => false

/-- Go `os.ReadDir`: the entries of a directory sorted by name. -/
def osReadDir (fs : Node) (p : Path) : Except Cause (List DirEntry) :=
  match fs.get p with
  | none => .error .notExist
  | some (.file _) => .error .notDir
  | some (.dir kids) =>
    .ok ((sortNames (kids.map Prod.fst)).map (fun n => ⟨n, isDirNode (findKid n kids)⟩))

/-! ## World -/

/-- Value of type `*sql.DB`: the number tells handles apart, the path is the store file. -/
structure Handle where
  id : Nat
  path : Path
  deriving DecidableEq, Repr

/-- Record of one call of `registerFileInDB`: the store file, the name, and whether the
name was in the store when the call was made. -/
structure InsertCall where
  db : Path
  name : String
  present : Bool
  deriving DecidableEq, Repr

/-- State of everything outside the program. -/
structure World where
  fs : Node
  stdout : List String
  copyCalls : List (Path × Path)
  inserts : List InsertCall
  opened : List Handle
  closed : List Handle

/-- State of a run: the world and the map `dbs` of `run`. -/
structure St where
  world : World
  dbs : List (Path × Handle)

/-- One line written by `fmt.Printf`. -/
def println (line : String) (w : World) : World :=
  { w with stdout := w.stdout ++ [line] }

/-- Source `copyFile`: `os.Open` of the source, `os.Create` of the destination (which
empties an existing file), then `io.Copy` of what the opened source holds at that moment. -/
def copyFile (src dst : Path) (w0 : World) : World × Option Cause :=
  let w : World := { w0 with copyCalls := w0.copyCalls ++ [(src, dst)] }
  match stat w.fs src with
  | none => (w, some .notExist)
  | some _ =>
    match writeAt (.raw []) w.fs dst with
    | .error c => (w, some c)
    | .ok fs1 =>
      match stat fs1 src with
      | none => ({ w with fs := fs1 }, some .notExist)
      | some .dir => ({ w with fs := fs1 }, some .isDir)
      | some (.file c) =>
        match writeAt c fs1 dst with
        | .error e => ({ w with fs := fs1 }, some e)
        | .ok fs2 => ({ w with fs := fs2 }, none)

/-- Go `sql.Open`: returns a new handle and does not touch the store file yet. -/
def sqlOpen (dbPath : Path) (w : World) : World × Except Cause Handle :=
  ({ w with opened := w.opened ++ [⟨w.opened.length, dbPath⟩] }, .ok ⟨w.opened.length, dbPath⟩)

/-- Go `db.Close`. -/
def dbClose (h : Handle) (w : World) : World :=
  { w with closed := w.closed ++ [h] }

/-- Source `initDB`: `CREATE TABLE IF NOT EXISTS files`.  A missing or empty store file
becomes a database with an empty table, a database is left as it is. -/
def initDB (h : Handle) (w : World) : World × Option Cause :=
  match stat w.fs h.path with
  | some .dir => (w, some .isDir)
  | some (.file (.ledger _)) => (w, none)
  | some (.file (.raw (_ :: _))) => (w, some .notDatabase)
  | _ =>
    match writeAt (.ledger []) w.fs h.path with
    | .error c => (w, some c)
    | .ok fs1 => ({ w with fs := fs1 }, none)

/-- Source `fileExistsInDB`: `SELECT count(*) FROM files WHERE name = ?`, then `count > 0`. -/
def fileExistsInDB (h : Handle) (name : String) (w : World) : Except Cause Bool :=
  match stat w.fs h.path with
  | some (.file (.ledger names)) => .ok (decide (names.count name > 0))
  | some (.file (.raw [])) => .error .noTable
  | some (.file (.raw (_ :: _))) => .error .notDatabase
  | some .dir => .error .isDir
  | none => .error .noTable

/-- Source `registerFileInDB`: `INSERT INTO files (name) VALUES (?)`; the primary key makes
the insertion of a recorded name fail. -/
def registerFileInDB (h : Handle) (name : String) (w : World) : World × Option Cause :=
  match stat w.fs h.path with
  | some (.file (.ledger names)) =>
    let w1 : World := { w with inserts := w.inserts ++ [⟨h.path, name, names.contains name⟩] }
    if names.contains name then (w1, some .constraint)
    else
      match writeAt (.ledger (names ++ [name])) w.fs h.path with
      | .error c => (w1, some c)
      | .ok fs1 => ({ w1 with fs := fs1 }, none)
  | some (.file (.raw [])) =>
    ({ w with inserts := w.inserts ++ [⟨h.path, name, false⟩] }, some .noTable)
  | some (.file (.raw (_ :: _))) =>
    ({ w with inserts := w.inserts ++ [⟨h.path, name, false⟩] }, some .notDatabase)
  | some .dir => ({ w with inserts := w.inserts ++ [⟨h.path, name, false⟩] }, some .isDir)
  | none => ({ w with inserts := w.inserts ++ [⟨h.path, name, false⟩] }, some .noTable)

/-! ## The run -/

/-- Lines 91-105 of `run`: the handle of the store of a directory, from the map `dbs` or
newly opened, initialised and remembered. -/
def getOrOpen (destDir : Path) (s : St) : St × Except Error Handle :=
  match s.dbs.lookup destDir with
  | some db => (s, .ok db)
  | none =>
    match sqlOpen (filepathJoin destDir ["igcopy.db"]) s.world with
    | (w1, .error c) =>
      ({ s with world := w1 }, .error (.openDb (filepathJoin destDir ["igcopy.db"]) c))
    | (w1, .ok db) =>
      match initDB db w1 with
      | (w2, some c) =>
        ({ s with world := dbClose db w2 },
          .error (.initDb (filepathJoin destDir ["igcopy.db"]) c))
      | (w2, none) => ({ world := w2, dbs := s.dbs ++ [(destDir, db)] }, .ok db)

/-- Type of the callback of `filepath.WalkDir`. -/
abbrev WalkFn := Path → Option DirEntry → Option Cause → St → St × Option Error

/-- Lines 118-133 of `run`: the notice, the copy and the registration of a file that is not
recorded in the store of its directory. -/
def copyAndRegister (path destPath relPath : Path) (db : Handle) (s : St) :
    St × Option Error :=
  match copyFile path destPath (println ("[Copying] " ++ pathString relPath) s.world) with
  | (w4, some c) => ({ s with world := w4 }, some (.copy destPath c))
  | (w4, none) =>
    match registerFileInDB db (filepathBase destPath) w4 with
    | (w5, some c) => ({ s with world := w5 }, some (.register (filepathBase destPath) c))
    | (w5, none) => ({ s with world := w5 }, none)

/-- Lines 82-133 of `run`: what is done with an image file once its relative path is known.
The destination path is `filepath.Join(outputDir, relPath)`, the destination directory its
`filepath.Dir` and the file name its `filepath.Base`. -/
def processFile (outputDir path relPath : Path) (s : St) : St × Option Error :=
  match osMkdirAll s.world.fs (filepathDir (filepathJoin outputDir relPath)) with
  | .error c => (s, some (.mkdir (filepathDir (filepathJoin outputDir relPath)) c))
  | .ok fs1 =>
    match getOrOpen (filepathDir (filepathJoin outputDir relPath))
        { s with world := { s.world with fs := fs1 } } with
    | (s2, .error e) => (s2, some e)
    | (s2, .ok db) =>
      match fileExistsInDB db (filepathBase (filepathJoin outputDir relPath)) s2.world with
      | .error c => (s2, some (.check (filepathBase (filepathJoin outputDir relPath)) c))
      | .ok true =>
        ({ s2 with world :=
            println ("[Skipped] " ++ pathString relPath ++ " (already in DB)") s2.world },
          none)
      | .ok false => copyAndRegister path (filepathJoin outputDir relPath) relPath db s2

/-- The callback that `run` passes to `filepath.WalkDir` (lines 61-134). -/
def visit (inputDir outputDir : Path) : WalkFn := fun path d err s =>
  match err with
  | some c => (s, some (.walk c))
  | none =>
    match d with
    | none => (s, some .nilEntry)
    | some d =>
      if d.isDir then (s, none)
      else if !isImage (pathString path) then (s, none)
      else
        match filepathRel inputDir path with
        | none => (s, some .rel)
        | some relPath => processFile outputDir path relPath s

/-- Loop of `walkDir` over the entries of a directory; it stops at the first error. -/
def walkEntries (recur : Path → DirEntry → St → Option (St × Option Error)) (path : Path) :
    List DirEntry → St → Option (St × Option Error)
  | [], s => some (s, none)
  | d :: ds, s =>
    match recur (path ++ [d.name]) d s with
    | none => none
    | some (s1, some e) => some (s1, some e)
    | some (s1, none) => walkEntries recur path ds s1

/-- Go `walkDir` of `path/filepath`: the callback on the entry, then, for a directory, on
everything below it.  The callback of `run` never returns `SkipDir` or `SkipAll`, so the
branches for them are left out. -/
def walkDir (fn : WalkFn) : Nat → Path → DirEntry → St → Option (St × Option Error)
  | 0, _, _, _ => none
  | fuel + 1, path, d, s =>
    match fn path (some d) none s with
    | (s1, some e) => some (s1, some e)
    | (s1, none) =>
      if !d.isDir then some (s1, none)
      else
        match osReadDir s1.world.fs path with
        | .error c => some (fn path (some d) (some c) s1)
        | .ok ds => walkEntries (walkDir fn fuel) path ds s1

/-- Go `filepath.WalkDir`. -/
def filepathWalkDir (fn : WalkFn) (fuel : Nat) (root : Path) (s : St) :
    Option (St × Option Error) :=
  match stat s.world.fs root with
  | none => some (fn root none (some .notExist) s)
  | some k => walkDir fn fuel root ⟨filepathBase root, decide (k = .dir)⟩ s

/-- The deferred function of `run`: closes every handle of the map `dbs`. -/
def closeAll : List (Path × Handle) → World → World
  | [], w => w
  | (_, db) :: rest, w => closeAll rest (dbClose db w)

/-- Source `run`, on the flags `inputDir` and `outputDir`. -/
def run (inputDir outputDir : Path) (fuel : Nat) (w : World) : Option (World × Option Error) :=
  match filepathWalkDir (visit inputDir outputDir) fuel inputDir ⟨w, []⟩ with
  | none => none
  | some (s, err) => some (closeAll s.dbs s.world, err)

/-- States that a walk can be in: those reached from a state by calls of the callback that
return no error. -/
inductive Reach (fn : WalkFn) : St → St → Prop where
  | refl (s : St) : Reach fn s s
  | step {s s1 s2 : St} (path : Path) (d : Option DirEntry) (err : Option Cause) :
    Reach fn s s1 → fn path d err s1 = (s2, none) → Reach fn s s2

/-- The map `dbs` holds, for a directory, a handle of the store file of that directory. -/
def CacheOk (s : St) : Prop :=
  ∀ d h, s.dbs.lookup d = some h → h.path = filepathJoin d ["igcopy.db"]

/-- What a walk that ends in state `s1` with result `r` has done: calls of the callback that
returned no error, one after the other, and, when the result is an error, one more call,
the last one, which returned that error. -/
def Trace (fn : WalkFn) (s s1 : St) (r : Option Error) : Prop :=
  match r with
  | none => Reach fn s s1
  | some e => ∃ s0 path d err, Reach fn s s0 ∧ fn path d err s0 = (s1, some e)

/-! ## Names of the destination -/

/-- Variable `destPath` of `run`. -/
abbrev destPath (outputDir relPath : Path) : Path := filepathJoin outputDir relPath

/-- Variable `destDir` of `run`. -/
abbrev destDir (outputDir relPath : Path) : Path := filepathDir (destPath outputDir relPath)

/-- Variable `fileName` of `run`. -/
abbrev fileName (outputDir relPath : Path) : String := filepathBase (destPath outputDir relPath)

/-- Variable `dbPath` of `run`. -/
abbrev dbPath (outputDir relPath : Path) : Path :=
  filepathJoin (destDir outputDir relPath) ["igcopy.db"]

/-- The tree under the input root is as it was in the world `w`. -/
def InputKept (inputDir : Path) (w : World) (s : St) : Prop :=
  ∀ q, stat s.world.fs (inputDir ++ q) = stat w.fs (inputDir ++ q)

/-- The name of the image at `p` is recorded in the store of its destination directory. -/
def Recorded (inputDir outputDir p : Path) (s : St) : Prop :=
  ∀ relPath, filepathRel inputDir p = some relPath → isImage (pathString p) = true →
    ∃ names, stat s.world.fs (dbPath outputDir relPath) = some (.file (.ledger names)) ∧
      fileName outputDir relPath ∈ names

/-- Every image strictly below the input root whose name is recorded in the store of its
destination directory was recorded there in the world `w` already, or has its content at
the mirrored path. -/
def Mirrored (inputDir outputDir : Path) (w : World) (s : St) : Prop :=
  ∀ relPath c names, relPath ≠ [] → stat w.fs (inputDir ++ relPath) = some (.file c) →
    isImage (pathString (inputDir ++ relPath)) = true →
    stat s.world.fs (dbPath outputDir relPath) = some (.file (.ledger names)) →
    fileName outputDir relPath ∈ names →
    (∃ n0, stat w.fs (dbPath outputDir relPath) = some (.file (.ledger n0)) ∧
      fileName outputDir relPath ∈ n0) ∨
    stat s.world.fs (destPath outputDir relPath) = some (.file c)

/-- The line that `run` prints for a file that it skips. -/
def skipLine (relPath : Path) : String :=
  "[Skipped] " ++ pathString relPath ++ " (already in DB)"

/-- Every image at or under the input root has its name recorded in the store of its
destination directory. -/
def AllRecorded (inputDir outputDir : Path) (fs : Node) : Prop :=
  ∀ relPath c, stat fs (inputDir ++ relPath) = some (.file c) →
    isImage (pathString (inputDir ++ relPath)) = true →
    ∃ names, stat fs (dbPath outputDir relPath) = some (.file (.ledger names)) ∧
      fileName outputDir relPath ∈ names

/-- States of a run that, since the world `w`, has done nothing but print skip lines. -/
def Quiet (w : World) (s : St) : Prop :=
  CacheOk s ∧ s.world.fs = w.fs ∧ s.world.copyCalls = w.copyCalls ∧
    s.world.inserts = w.inserts ∧
    ∃ lines, s.world.stdout = w.stdout ++ lines ∧ ∀ l, l ∈ lines → ∃ relPath, l = skipLine relPath

/-- The skip line of the image at `p` has been printed since the world `w`. -/
def Skipped (inputDir : Path) (w : World) (p : Path) (s : St) : Prop :=
  ∀ relPath, filepathRel inputDir p = some relPath → isImage (pathString p) = true →
    ∃ lines, s.world.stdout = w.stdout ++ lines ∧ skipLine relPath ∈ lines

/-! ## Sample worlds -/

/-- The tree of the example of the specification: `in/a.jpg`, `in/notes.txt`, `in/sub/b.png`. -/
def sampleFs : Node :=
  .dir [("in", .dir [("a.jpg", .file (.raw [1, 2])), ("notes.txt", .file (.raw [9])),
    ("sub", .dir [("b.png", .file (.raw [3]))])])]

/-- The world of the example of the specification before the first run. -/
def sampleWorld : World := ⟨sampleFs, [], [], [], [], []⟩

/-- A tree in which the store of `out` records `a.jpg` while `out/a.jpg` is missing. -/
def recordedFs : Node :=
  .dir [("in", .dir [("a.jpg", .file (.raw [1, 2]))]),
    ("out", .dir [("igcopy.db", .file (.ledger ["a.jpg"]))])]

/-- The world with the tree `recordedFs`. -/
def recordedWorld : World := ⟨recordedFs, [], [], [], [], []⟩

/-- A tree whose only entry is the image file `photo.jpg`. -/
def photoFs : Node := .dir [("photo.jpg", .file (.raw [7, 7, 7]))]

/-- The world with the tree `photoFs`. -/
def photoWorld : World := ⟨photoFs, [], [], [], [], []⟩

/-- A tree whose input directory holds no image: `in/notes.txt` only. -/
def notesFs : Node := .dir [("in", .dir [("notes.txt", .file (.raw [9]))])]

/-- The world with the tree `notesFs`. -/
def notesWorld : World := ⟨notesFs, [], [], [], [], []⟩

/-- The second tree keeps what the first holds: directories stay directories and regular
files stay regular files (their content may change). -/
def Grow (fs fs1 : Node) : Prop :=
  ∀ q, (stat fs q = some .dir → stat fs1 q = some .dir) ∧
    (∀ c, stat fs q = some (.file c) → ∃ c1, stat fs1 q = some (.file c1))

/-- Bookkeeping of the handles while the callback has not failed: the handles opened since
the world `w0` are those of the map `dbs`, none of them is closed, no directory is twice in
the map, and the handle of a directory is one of the store file of that directory. -/
def Books (w0 : World) (s : St) : Prop :=
  s.world.opened = w0.opened ++ s.dbs.map Prod.snd ∧ s.world.closed = w0.closed ∧
    (s.dbs.map Prod.fst).Nodup ∧ ∀ d h, (d, h) ∈ s.dbs → h.path = filepathJoin d ["igcopy.db"]

/-- Bookkeeping of the handles when the walk is over: next to the handles of the map there
may be handles that were opened and closed at once (after a failed `initDB`); no store file
has two handles. -/
def BooksEnd (w0 : World) (s : St) : Prop :=
  ∃ extra : List Handle, s.world.opened = w0.opened ++ (s.dbs.map Prod.snd ++ extra) ∧
    s.world.closed = w0.closed ++ extra ∧
    ((s.dbs.map Prod.snd ++ extra).map Handle.path).Nodup ∧
    ∀ h, h ∈ s.dbs.map Prod.snd ++ extra → ∃ d, h.path = filepathJoin d ["igcopy.db"]

theorem findKid_putKid (x y : String) (n : Node) (kids : List (String × Node)) :
    findKid y (putKid x n kids) = if y = x then some n else findKid y kids := by
  induction kids with
  | nil =>
    by_cases h : y = x
    · simp [putKid, findKid, h]
    · have h2 : ¬ x = y := fun e => h e.symm
      simp [putKid, findKid, h, h2]
  | cons a rest ih =>
    obtain ⟨z, m⟩ := a
    by_cases hz : z = x
    · subst hz
      by_cases h : y = z
      · simp [putKid, findKid, h]
      · have h2 : ¬ z = y := fun e => h e.symm
        simp [putKid, findKid, h, h2]
    · by_cases h : y = x
      · subst h
        simp [putKid, findKid, hz, ih]
      · by_cases hzy : z = y
        · simp [putKid, findKid, hz, hzy, h]
        · simp [putKid, findKid, hz, hzy, ih, h]

theorem stat_nil (fs : Node) : stat fs [] = some fs.kind := by
  simp [stat, Node.get]

theorem stat_file_cons (c : Content) (x : String) (xs : Path) :
    stat (.file c) (x :: xs) = none := by
  simp [stat, Node.get]

theorem stat_dir_cons (kids : List (String × Node)) (x : String) (xs : Path) :
    stat (.dir kids) (x :: xs) = (findKid x kids).bind (fun k => stat k xs) := by
  cases h : findKid x kids <;> simp [stat, Node.get, h]

/-- Below a regular file there is nothing. -/
theorem stat_below_file (fs : Node) (p : Path) (c : Content) (x : String) (r : Path)
    (h : stat fs p = some (.file c)) : stat fs (p ++ x :: r) = none := by
  induction p generalizing fs with
  | nil =>
    cases fs with
    | file c1 => simp [stat_file_cons]
    | dir kids => simp [stat_nil, Node.kind] at h
  | cons y ys ih =>
    cases fs with
    | file c1 => simp [stat_file_cons]
    | dir kids =>
      rw [stat_dir_cons] at h
      rw [List.cons_append, stat_dir_cons]
      cases hk : findKid y kids with
      | none => simp
      | some k =>
        rw [hk] at h
        simpa using ih k (by simpa using h)

/-- Below a missing path there is nothing. -/
theorem stat_below_none (fs : Node) (p r : Path) (h : stat fs p = none) :
    stat fs (p ++ r) = none := by
  induction p generalizing fs with
  | nil => simp [stat_nil] at h
  | cons y ys ih =>
    cases fs with
    | file c1 => simp [stat_file_cons]
    | dir kids =>
      rw [stat_dir_cons] at h
      rw [List.cons_append, stat_dir_cons]
      cases hk : findKid y kids with
      | none => simp
      | some k =>
        rw [hk] at h
        simpa using ih k (by simpa using h)

/-- Effect of `writeAt` on what `stat` sees. -/
theorem stat_writeAt (c : Content) (fs fs1 : Node) (p q : Path)
    (h : writeAt c fs p = .ok fs1) :
    stat fs1 q = if q = p then some (.file c) else stat fs q := by
  induction p generalizing fs fs1 q with
  | nil =>
    cases fs with
    | file c1 =>
      simp [writeAt] at h
      subst h
      cases q with
      | nil => simp [stat_nil, Node.kind]
      | cons y ys => simp [stat_file_cons]
    | dir kids => simp [writeAt] at h
  | cons x xs ih =>
    cases fs with
    | file c1 => simp [writeAt] at h
    | dir kids =>
      cases xs with
      | nil =>
        cases hk : findKid x kids with
        | none =>
          simp [writeAt, hk] at h
          subst h
          cases q with
          | nil => simp [stat_nil, Node.kind]
          | cons y ys =>
            rw [stat_dir_cons, stat_dir_cons, findKid_putKid]
            by_cases hy : y = x
            · subst hy
              cases ys with
              | nil => simp [stat_nil, Node.kind, hk]
              | cons z zs => simp [stat_file_cons, hk]
            · simp [hy]
        | some k =>
          cases k with
          | dir kk => simp [writeAt, hk] at h
          | file c1 =>
            simp [writeAt, hk] at h
            subst h
            cases q with
            | nil => simp [stat_nil, Node.kind]
            | cons y ys =>
              rw [stat_dir_cons, stat_dir_cons, findKid_putKid]
              by_cases hy : y = x
              · subst hy
                cases ys with
                | nil => simp [stat_nil, Node.kind, hk]
                | cons z zs => simp [stat_file_cons, hk]
              · simp [hy]
      | cons x2 xs2 =>
        cases hk : findKid x kids with
        | none => simp [writeAt, hk] at h
        | some k =>
          cases hw : writeAt c k (x2 :: xs2) with
          | error e => simp [writeAt, hk, hw] at h
          | ok k1 =>
            simp [writeAt, hk, hw] at h
            subst h
            cases q with
            | nil => simp [stat_nil, Node.kind]
            | cons y ys =>
              rw [stat_dir_cons, stat_dir_cons, findKid_putKid]
              by_cases hy : y = x
              · subst hy
                simp [hk, ih k k1 ys hw]
              · simp [hy]

/-- Effect of `mkdirPath` on what `stat` sees: the missing prefixes of the path become
directories and nothing else changes. -/
theorem stat_mkdirPath (fs fs1 : Node) (p q : Path) (h : mkdirPath fs p = .ok fs1) :
    stat fs1 q = if stat fs q = none ∧ q <+: p then some .dir else stat fs q := by
  induction p generalizing fs fs1 q with
  | nil =>
    cases fs with
    | file c1 => simp [mkdirPath] at h
    | dir kids =>
      simp [mkdirPath] at h
      subst h
      cases q with
      | nil => simp [stat_nil]
      | cons y ys => simp
  | cons x xs ih =>
    cases fs with
    | file c1 => simp [mkdirPath] at h
    | dir kids =>
      cases hm : mkdirPath ((findKid x kids).getD (.dir [])) xs with
      | error e => simp [mkdirPath, hm] at h
      | ok k =>
        simp [mkdirPath, hm] at h
        subst h
        cases q with
        | nil => simp [stat_nil, Node.kind]
        | cons y ys =>
          rw [stat_dir_cons, stat_dir_cons, findKid_putKid]
          by_cases hy : y = x
          · subst hy
            have ih1 := ih _ k ys hm
            cases hk : findKid y kids with
            | some c0 =>
              rw [hk] at ih1
              simp [ih1, List.cons_prefix_cons]
            | none =>
              rw [hk] at ih1
              cases ys with
              | nil => simpa [stat_nil, Node.kind] using ih1
              | cons z zs => simpa [stat_file_cons, stat_dir_cons, findKid, List.cons_prefix_cons] using ih1
          · have : ¬ (y :: ys <+: x :: xs) := by
              simp [List.cons_prefix_cons, hy]
            simp [hy, this]

/-- A prefix of a path at which something is, is a directory or a file, not missing. -/
theorem stat_of_prefix_ne_none (fs : Node) (q p : Path) (hq : q <+: p)
    (h : stat fs p ≠ none) : stat fs q ≠ none := by
  obtain ⟨r, rfl⟩ := hq
  intro hn
  exact h (stat_below_none fs q r hn)

/-- What is above a path at which something is, is a directory. -/
theorem stat_parent_dir (fs : Node) (q : Path) (x : String) (r : Path)
    (h : stat fs (q ++ x :: r) ≠ none) : stat fs q = some .dir := by
  cases hq : stat fs q with
  | none => exact absurd (stat_below_none fs q (x :: r) hq) h
  | some k =>
    cases k with
    | dir => rfl
    | file c => exact absurd (stat_below_file fs q c x r hq) h

/-- Effect of `os.MkdirAll` on what `stat` sees. -/
theorem stat_osMkdirAll (fs fs1 : Node) (p q : Path) (h : osMkdirAll fs p = .ok fs1) :
    stat fs1 q = if stat fs q = none ∧ q <+: p then some .dir else stat fs q := by
  unfold osMkdirAll at h
  cases hs : stat fs p with
  | none =>
    rw [hs] at h
    exact stat_mkdirPath fs fs1 p q h
  | some k =>
    rw [hs] at h
    cases k with
    | file c => simp at h
    | dir =>
      simp at h
      subst h
      by_cases hq : q <+: p
      · have := stat_of_prefix_ne_none fs q p hq (by simp [hs])
        simp [this]
      · simp [hq]

/-- After `os.MkdirAll` the path is a directory. -/
theorem stat_osMkdirAll_self (fs fs1 : Node) (p : Path) (h : osMkdirAll fs p = .ok fs1) :
    stat fs1 p = some .dir := by
  have h1 := stat_osMkdirAll fs fs1 p p h
  unfold osMkdirAll at h
  cases hs : stat fs p with
  | none => simpa [hs] using h1
  | some k =>
    rw [hs] at h
    cases k with
    | file c => simp at h
    | dir => simpa [hs] using h1

/-- On a directory `os.MkdirAll` does nothing. -/
theorem osMkdirAll_of_dir (fs : Node) (p : Path) (h : stat fs p = some .dir) :
    osMkdirAll fs p = .ok fs := by
  simp [osMkdirAll, h]

/-- What `os.MkdirAll` leaves in place: everything that was there. -/
theorem stat_osMkdirAll_of_some (fs fs1 : Node) (p q : Path) (k : Kind)
    (h : osMkdirAll fs p = .ok fs1) (hq : stat fs q = some k) : stat fs1 q = some k := by
  rw [stat_osMkdirAll fs fs1 p q h]
  simp [hq]

/-- On a directory `writeAt` fails. -/
theorem writeAt_dir_fails (c : Content) (fs : Node) (p : Path) (h : stat fs p = some .dir) :
    ∀ fs1, writeAt c fs p ≠ .ok fs1 := by
  intro fs1 hw
  have := stat_writeAt c fs fs1 p p hw
  induction p generalizing fs fs1 with
  | nil =>
    cases fs with
    | file c1 => simp [stat_nil, Node.kind] at h
    | dir kids => simp [writeAt] at hw
  | cons x xs ih =>
    cases fs with
    | file c1 => simp [writeAt] at hw
    | dir kids =>
      rw [stat_dir_cons] at h
      cases xs with
      | nil =>
        cases hk : findKid x kids with
        | none => simp [hk] at h
        | some k =>
          cases k with
          | dir kk => simp [writeAt, hk] at hw
          | file c1 => simp [hk, stat_nil, Node.kind] at h
      | cons x2 xs2 =>
        cases hk : findKid x kids with
        | none => simp [hk] at h
        | some k =>
          cases hw2 : writeAt c k (x2 :: xs2) with
          | error e => simp [writeAt, hk, hw2] at hw
          | ok k1 =>
            rw [hk] at h
            exact ih k (by simpa using h) k1 hw2 (stat_writeAt c k k1 _ _ hw2)

/-! ## Lemmas on the operations -/

/-- What `copyFile` records and leaves alone, whatever it returns. -/
theorem copyFile_logs (src dst : Path) (w w1 : World) (r : Option Cause)
    (h : copyFile src dst w = (w1, r)) :
    w1.stdout = w.stdout ∧ w1.copyCalls = w.copyCalls ++ [(src, dst)] ∧
      w1.inserts = w.inserts ∧ w1.opened = w.opened ∧ w1.closed = w.closed := by
  unfold copyFile at h
  simp only at h
  split at h
  · cases h; simp
  · split at h
    · cases h; simp
    · split at h
      · cases h; simp
      · cases h; simp
      · split at h
        · cases h; simp
        · cases h; simp

/-- Away from the destination `copyFile` changes nothing in the file system. -/
theorem copyFile_frame (src dst : Path) (w w1 : World) (r : Option Cause) (q : Path)
    (h : copyFile src dst w = (w1, r)) (hq : q ≠ dst) : stat w1.fs q = stat w.fs q := by
  unfold copyFile at h
  simp only at h
  split at h
  · cases h; simp
  · split at h
    · cases h; simp
    · rename_i fs1 hc
      have e1 : stat fs1 q = stat w.fs q := by
        rw [stat_writeAt _ _ _ _ q hc]; simp [hq]
      split at h
      · cases h; simpa using e1
      · cases h; simpa using e1
      · split at h
        · cases h; simpa using e1
        · rename_i c fs2 hc2
          cases h
          simp only
          rw [stat_writeAt _ _ _ _ q hc2]; simp [hq, e1]

/-- At the destination `copyFile` leaves a regular file or what was there. -/
theorem copyFile_dst (src dst : Path) (w w1 : World) (r : Option Cause)
    (h : copyFile src dst w = (w1, r)) :
    stat w1.fs dst = stat w.fs dst ∨ ∃ c, stat w1.fs dst = some (.file c) := by
  unfold copyFile at h
  simp only at h
  split at h
  · cases h; simp
  · split at h
    · cases h; simp
    · rename_i fs1 hc
      have e1 : stat fs1 dst = some (.file (.raw [])) := by
        rw [stat_writeAt _ _ _ _ dst hc]; simp
      split at h
      · cases h; exact Or.inr ⟨_, e1⟩
      · cases h; exact Or.inr ⟨_, e1⟩
      · split at h
        · cases h; exact Or.inr ⟨_, e1⟩
        · rename_i c0 _ _ fs2 hc2
          cases h
          refine Or.inr ⟨c0, ?_⟩
          simp only
          rw [stat_writeAt _ _ _ _ dst hc2]; simp

/-- A successful `copyFile`: the source was a regular file, and the destination now holds
what the source held once the destination had been created. -/
theorem copyFile_ok (src dst : Path) (w w1 : World) (h : copyFile src dst w = (w1, none)) :
    ∃ c, stat w.fs src = some (.file c) ∧
      stat w1.fs dst = some (.file (if src = dst then .raw [] else c)) := by
  unfold copyFile at h
  simp only at h
  split at h
  · cases h
  · rename_i k hk
    split at h
    · cases h
    · rename_i fs1 hc
      have e1 : ∀ q, stat fs1 q = if q = dst then some (.file (.raw [])) else stat w.fs q :=
        fun q => stat_writeAt _ _ _ _ q hc
      split at h
      · cases h
      · cases h
      · rename_i c hs
        split at h
        · cases h
        · rename_i fs2 hc2
          cases h
          simp only
          rw [stat_writeAt _ _ _ _ dst hc2]
          rw [e1 src] at hs
          by_cases hsd : src = dst
          · subst hsd
            simp at hs
            subst hs
            have : stat w.fs src ≠ some .dir :=
              fun hd => writeAt_dir_fails (.raw []) w.fs src hd fs1 hc
            rw [hk] at this
            cases k with
            | dir => exact absurd rfl this
            | file c0 => exact ⟨c0, hk, by simp⟩
          · simp only [hsd, if_false] at hs
            exact ⟨c, hs, by simp [hsd]⟩

/-- What `initDB` leaves alone: the records of the world; and on failure everything. -/
theorem initDB_logs (h : Handle) (w w1 : World) (r : Option Cause)
    (hi : initDB h w = (w1, r)) :
    w1.stdout = w.stdout ∧ w1.copyCalls = w.copyCalls ∧ w1.inserts = w.inserts ∧
      w1.opened = w.opened ∧ w1.closed = w.closed ∧ (r ≠ none → w1 = w) := by
  unfold initDB at hi
  split at hi
  · cases hi; simp
  · cases hi; simp
  · cases hi; simp
  · split at hi
    · cases hi; simp
    · cases hi; simp

/-- Away from the store file `initDB` changes nothing in the file system. -/
theorem initDB_frame (h : Handle) (w w1 : World) (r : Option Cause) (q : Path)
    (hi : initDB h w = (w1, r)) (hq : q ≠ h.path) : stat w1.fs q = stat w.fs q := by
  unfold initDB at hi
  split at hi
  · cases hi; rfl
  · cases hi; rfl
  · cases hi; rfl
  · split at hi
    · cases hi; rfl
    · rename_i fs1 hc
      cases hi
      simp only
      rw [stat_writeAt _ _ _ _ q hc]; simp [hq]

/-- On a store that is a database `initDB` does nothing. -/
theorem initDB_of_ledger (h : Handle) (w : World) (names : List String)
    (hs : stat w.fs h.path = some (.file (.ledger names))) : initDB h w = (w, none) := by
  simp [initDB, hs]

/-- After a successful `initDB` the store is a database: the one that was there, or an
empty one where no store or an empty file was. -/
theorem initDB_ok (h : Handle) (w w1 : World) (hi : initDB h w = (w1, none)) :
    (∃ names, stat w.fs h.path = some (.file (.ledger names)) ∧ w1 = w) ∨
      ((stat w.fs h.path = none ∨ stat w.fs h.path = some (.file (.raw []))) ∧
        stat w1.fs h.path = some (.file (.ledger []))) := by
  unfold initDB at hi
  split at hi
  · cases hi
  · rename_i names hs
    cases hi
    exact Or.inl ⟨names, hs, rfl⟩
  · cases hi
  · rename_i h1 h2 h3
    split at hi
    · cases hi
    · rename_i fs1 hc
      cases hi
      refine Or.inr ⟨?_, ?_⟩
      · cases hs : stat w.fs h.path with
        | none => exact Or.inl rfl
        | some k =>
          cases k with
          | dir => exact absurd hs (h1)
          | file c =>
            cases c with
            | ledger names => exact absurd hs (h2 names)
            | raw bytes =>
              cases bytes with
              | nil => exact Or.inr rfl
              | cons b bs => exact absurd hs (h3 b bs)
      · simp only
        rw [stat_writeAt _ _ _ _ _ hc]; simp

/-- A successful `fileExistsInDB` tells whether the name is recorded in the store. -/
theorem fileExistsInDB_ok (h : Handle) (name : String) (w : World) (b : Bool)
    (he : fileExistsInDB h name w = .ok b) :
    ∃ names, stat w.fs h.path = some (.file (.ledger names)) ∧ (b = true ↔ name ∈ names) := by
  unfold fileExistsInDB at he
  split at he
  · rename_i names hs
    cases he
    exact ⟨names, hs, by simp [List.count_pos_iff]⟩
  · cases he
  · cases he
  · cases he
  · cases he

/-- On a store that is a database `fileExistsInDB` succeeds. -/
theorem fileExistsInDB_of_ledger (h : Handle) (name : String) (w : World)
    (names : List String) (hs : stat w.fs h.path = some (.file (.ledger names))) :
    fileExistsInDB h name w = .ok (decide (name ∈ names)) := by
  simp [fileExistsInDB, hs, List.count_pos_iff]

/-- What `registerFileInDB` records and leaves alone, whatever it returns. -/
theorem registerFileInDB_logs (h : Handle) (name : String) (w w1 : World) (r : Option Cause)
    (hr : registerFileInDB h name w = (w1, r)) :
    w1.stdout = w.stdout ∧ w1.copyCalls = w.copyCalls ∧ w1.opened = w.opened ∧
      w1.closed = w.closed ∧
      (∃ b, w1.inserts = w.inserts ++ [⟨h.path, name, b⟩] ∧
        (b = true → r = some .constraint) ∧
        (b = true ↔ ∃ names, stat w.fs h.path = some (.file (.ledger names)) ∧ name ∈ names)) ∧
      (r ≠ none → w1.fs = w.fs) := by
  unfold registerFileInDB at hr
  split at hr
  · rename_i names hs
    simp only at hr
    split at hr
    · rename_i hc
      cases hr
      refine ⟨rfl, rfl, rfl, rfl, ⟨true, ?_, ?_, ?_⟩, ?_⟩
      · simp only [hc]
      · simp
      · simp only [true_iff]
        exact ⟨names, hs, by simpa using hc⟩
      · simp
    · rename_i hc
      have hb : names.contains name = false := by simpa using hc
      have hnot : ¬ ∃ names, stat w.fs h.path = some (.file (.ledger names)) ∧ name ∈ names := by
        rintro ⟨n2, h2, h3⟩
        rw [hs] at h2
        simp at h2
        subst h2
        exact hc (by simpa using h3)
      split at hr
      · cases hr
        exact ⟨rfl, rfl, rfl, rfl, ⟨false, by simp only [hb], by simp, by simpa using hnot⟩,
          by simp⟩
      · cases hr
        exact ⟨rfl, rfl, rfl, rfl, ⟨false, by simp only [hb], by simp, by simpa using hnot⟩,
          by simp⟩
  all_goals
    rename_i hs
    cases hr
    refine ⟨rfl, rfl, rfl, rfl, ⟨false, rfl, by simp, ?_⟩, by simp⟩
    simp [hs]

/-- A successful `registerFileInDB`: the name was not recorded and is now the last name
of the store; nothing else changes in the file system. -/
theorem registerFileInDB_ok (h : Handle) (name : String) (w w1 : World)
    (hr : registerFileInDB h name w = (w1, none)) :
    ∃ names, stat w.fs h.path = some (.file (.ledger names)) ∧ name ∉ names ∧
      ∀ q, stat w1.fs q =
        if q = h.path then some (.file (.ledger (names ++ [name]))) else stat w.fs q := by
  unfold registerFileInDB at hr
  split at hr
  · rename_i names hs
    simp only at hr
    split at hr
    · cases hr
    · rename_i hc
      split at hr
      · cases hr
      · rename_i fs1 hw
        cases hr
        refine ⟨names, hs, by simpa using hc, fun q => ?_⟩
        simp only
        exact stat_writeAt _ _ _ _ q hw
  all_goals cases hr

/-! ## The extension classifier -/

/-- The loop of `filepath.Ext` on a text whose last dot is followed by neither a dot nor a
separator: the result is the text from that dot on. -/
theorem extAux_dot (t rest acc : List Char) (hd : '.' ∉ t) (hs : '/' ∉ t) :
    extAux (t ++ '.' :: rest) acc = '.' :: (t.reverse ++ acc) := by
  induction t generalizing acc with
  | nil => simp [extAux]
  | cons c t ih =>
    have hc1 : c ≠ '/' := fun e => hs (by simp [e])
    have hc2 : c ≠ '.' := fun e => hd (by simp [e])
    have hd1 : '.' ∉ t := fun e => hd (by simp [e])
    have hs1 : '/' ∉ t := fun e => hs (by simp [e])
    simp [extAux, hc1, hc2, ih (c :: acc) hd1 hs1]

/-- Looking up the key that was just added to a map. -/
theorem lookup_append_self (l : List (Path × Handle)) (d : Path) (h : Handle)
    (hl : l.lookup d = none) : (l ++ [(d, h)]).lookup d = some h := by
  simp [List.lookup_append, hl]

/-- Looking up a key in a map to which something was added. -/
theorem lookup_append_some (l : List (Path × Handle)) (d e : Path) (h h1 : Handle)
    (hl : (l ++ [(d, h)]).lookup e = some h1) :
    l.lookup e = some h1 ∨ (l.lookup e = none ∧ e = d ∧ h1 = h) := by
  rw [List.lookup_append] at hl
  cases hle : l.lookup e with
  | some h2 =>
    rw [hle] at hl
    exact Or.inl (by simpa using hl)
  | none =>
    rw [hle] at hl
    by_cases hed : e = d
    · subst hed
      simp [List.lookup] at hl
      exact Or.inr ⟨rfl, rfl, hl.symm⟩
    · have : (e == d) = false := by simpa using hed
      simp [List.lookup, this] at hl

/-- What `getOrOpen` does when the directory is in the map: nothing. -/
theorem getOrOpen_hit (d : Path) (s : St) (db : Handle) (h : s.dbs.lookup d = some db) :
    getOrOpen d s = (s, .ok db) := by
  simp [getOrOpen, h]

/-- What `getOrOpen` does when the directory is not in the map. -/
theorem getOrOpen_miss (d : Path) (s : St) (h : s.dbs.lookup d = none) :
    getOrOpen d s =
      match initDB ⟨s.world.opened.length, filepathJoin d ["igcopy.db"]⟩
          { s.world with opened := s.world.opened ++
            [⟨s.world.opened.length, filepathJoin d ["igcopy.db"]⟩] } with
      | (w2, some c) =>
        ({ s with world := dbClose ⟨s.world.opened.length, filepathJoin d ["igcopy.db"]⟩ w2 },
          .error (.initDb (filepathJoin d ["igcopy.db"]) c))
      | (w2, none) =>
        ({ world := w2, dbs := s.dbs ++
            [(d, ⟨s.world.opened.length, filepathJoin d ["igcopy.db"]⟩)] },
          .ok ⟨s.world.opened.length, filepathJoin d ["igcopy.db"]⟩) := by
  simp [getOrOpen, h, sqlOpen]

/-- The outcome of a successful `getOrOpen`. -/
theorem getOrOpen_ok (d : Path) (s s2 : St) (db : Handle) (hc : CacheOk s)
    (h : getOrOpen d s = (s2, .ok db)) :
    db.path = filepathJoin d ["igcopy.db"] ∧ CacheOk s2 ∧ s2.dbs.lookup d = some db ∧
      s2.world.stdout = s.world.stdout ∧ s2.world.copyCalls = s.world.copyCalls ∧
      s2.world.inserts = s.world.inserts ∧
      (∀ q, stat s2.world.fs q = stat s.world.fs q ∨
        (q = filepathJoin d ["igcopy.db"] ∧
          (stat s.world.fs q = none ∨ stat s.world.fs q = some (.file (.raw []))) ∧
          stat s2.world.fs q = some (.file (.ledger [])))) := by
  cases hl : s.dbs.lookup d with
  | some db1 =>
    rw [getOrOpen_hit d s db1 hl] at h
    simp only [Prod.mk.injEq, Except.ok.injEq] at h
    obtain ⟨h1, h2⟩ := h
    subst h1
    subst h2
    exact ⟨hc d _ hl, hc, hl, rfl, rfl, rfl, fun q => Or.inl rfl⟩
  | none =>
    rw [getOrOpen_miss d s hl] at h
    split at h
    · cases h
    · rename_i w2 hi
      cases h
      have hlog := initDB_logs _ _ _ _ hi
      refine ⟨rfl, ?_, lookup_append_self _ _ _ hl, hlog.1, hlog.2.1, hlog.2.2.1, fun q => ?_⟩
      · intro e h1 he
        rcases lookup_append_some _ _ _ _ _ he with h2 | ⟨-, h3, h4⟩
        · exact hc e h1 h2
        · subst h3; subst h4; rfl
      · by_cases hq : q = filepathJoin d ["igcopy.db"]
        · subst hq
          rcases initDB_ok _ _ _ hi with ⟨names, -, h2⟩ | ⟨h1, h2⟩
          · left; rw [h2]
          · right; exact ⟨rfl, h1, h2⟩
        · left
          have := initDB_frame ⟨s.world.opened.length, filepathJoin d ["igcopy.db"]⟩ _ _ _ q hi hq
          simpa using this

/-- When the store of the directory is a database, `getOrOpen` succeeds and leaves the file
system as it is. -/
theorem getOrOpen_of_ledger (d : Path) (s : St) (names : List String) (hc : CacheOk s)
    (hs : stat s.world.fs (filepathJoin d ["igcopy.db"]) = some (.file (.ledger names))) :
    ∃ s2 db, getOrOpen d s = (s2, .ok db) ∧ db.path = filepathJoin d ["igcopy.db"] ∧
      s2.world.fs = s.world.fs ∧ s2.world.stdout = s.world.stdout ∧
      s2.world.copyCalls = s.world.copyCalls ∧ s2.world.inserts = s.world.inserts ∧
      s2.world.closed = s.world.closed := by
  cases hl : s.dbs.lookup d with
  | some db1 =>
    exact ⟨s, db1, getOrOpen_hit d s db1 hl, hc d db1 hl, rfl, rfl, rfl, rfl, rfl⟩
  | none =>
    rw [getOrOpen_miss d s hl]
    rw [initDB_of_ledger _ _ names (by simpa using hs)]
    exact ⟨_, _, rfl, rfl, rfl, rfl, rfl, rfl, rfl⟩

/-- Whatever `getOrOpen` returns, the map stays well formed. -/
theorem getOrOpen_cacheOk (d : Path) (s s2 : St) (r : Except Error Handle) (hc : CacheOk s)
    (h : getOrOpen d s = (s2, r)) : CacheOk s2 := by
  cases r with
  | ok db => exact (getOrOpen_ok d s s2 db hc h).2.1
  | error e =>
    cases hl : s.dbs.lookup d with
    | some db1 =>
      rw [getOrOpen_hit d s db1 hl] at h
      cases h
    | none =>
      rw [getOrOpen_miss d s hl] at h
      split at h
      · cases h
        exact hc
      · cases h

/-- The copy and the registration leave the map alone. -/
theorem copyAndRegister_dbs (path destPath relPath : Path) (db : Handle) (s : St) :
    (copyAndRegister path destPath relPath db s).1.dbs = s.dbs := by
  unfold copyAndRegister
  split
  · rfl
  · split <;> rfl

/-- The callback on an image file whose relative path is known. -/
theorem visit_eligible (inputDir outputDir path relPath : Path) (d : DirEntry) (s : St)
    (hd : d.isDir = false) (hi : isImage (pathString path) = true)
    (hr : filepathRel inputDir path = some relPath) :
    visit inputDir outputDir path (some d) none s = processFile outputDir path relPath s := by
  simp [visit, hd, hi, hr]

/-- The callback on a directory and on a file that is not an image. -/
theorem visit_skip (inputDir outputDir path : Path) (d : DirEntry) (s : St)
    (h : d.isDir = true ∨ isImage (pathString path) = false) :
    visit inputDir outputDir path (some d) none s = (s, none) := by
  rcases h with h | h
  · simp [visit, h]
  · simp [visit, h]

/-- Whatever `processFile` returns, the map stays well formed. -/
theorem processFile_cacheOk (outputDir path relPath : Path) (s s1 : St) (r : Option Error)
    (hc : CacheOk s) (h : processFile outputDir path relPath s = (s1, r)) : CacheOk s1 := by
  unfold processFile at h
  split at h
  · cases h; exact hc
  · rename_i fs1 hm
    split at h
    · rename_i s2 e hg
      cases h
      exact getOrOpen_cacheOk _ _ _ _ (by exact hc) hg
    · rename_i s2 db hg
      have hc2 : CacheOk s2 := getOrOpen_cacheOk _ _ _ _ (by exact hc) hg
      split at h
      · cases h; exact hc2
      · cases h; exact hc2
      · have := copyAndRegister_dbs path (filepathJoin outputDir relPath) relPath db s2
        rw [h] at this
        intro e h1 he
        exact hc2 e h1 (by rw [← this]; exact he)

/-- Whatever the callback returns, the map stays well formed. -/
theorem visit_cacheOk (inputDir outputDir path : Path) (d : Option DirEntry)
    (err : Option Cause) (s s1 : St) (r : Option Error) (hc : CacheOk s)
    (h : visit inputDir outputDir path d err s = (s1, r)) : CacheOk s1 := by
  unfold visit at h
  split at h
  · cases h; exact hc
  · split at h
    · cases h; exact hc
    · split at h
      · cases h; exact hc
      · split at h
        · cases h; exact hc
        · split at h
          · cases h; exact hc
          · exact processFile_cacheOk _ _ _ _ _ _ hc h

/-- The map of a state that a run can be in is well formed. -/
theorem reach_cacheOk (inputDir outputDir : Path) (s s1 : St)
    (hr : Reach (visit inputDir outputDir) s s1) (hc : CacheOk s) : CacheOk s1 := by
  induction hr with
  | refl => exact hc
  | step path d err _ hstep ih => exact visit_cacheOk _ _ _ _ _ _ _ _ ih hstep

/-- The empty map is well formed. -/
theorem cacheOk_nil (w : World) : CacheOk ⟨w, []⟩ := by
  intro d h hl
  simp [List.lookup] at hl

/-- What `processFile` does with a file whose name is recorded in the store of its
destination directory. -/
theorem processFile_recorded (outputDir path relPath : Path) (s : St) (names : List String)
    (hc : CacheOk s)
    (hl : stat s.world.fs
      (filepathJoin (filepathDir (filepathJoin outputDir relPath)) ["igcopy.db"]) =
        some (.file (.ledger names)))
    (hm : filepathBase (filepathJoin outputDir relPath) ∈ names) :
    ∃ s1, processFile outputDir path relPath s = (s1, none) ∧
      s1.world.stdout =
        s.world.stdout ++ ["[Skipped] " ++ pathString relPath ++ " (already in DB)"] ∧
      s1.world.copyCalls = s.world.copyCalls ∧ s1.world.inserts = s.world.inserts ∧
      s1.world.fs = s.world.fs ∧ s1.world.closed = s.world.closed ∧ CacheOk s1 := by
  have hdir : stat s.world.fs (filepathDir (filepathJoin outputDir relPath)) = some .dir := by
    apply stat_parent_dir _ _ "igcopy.db" []
    have hl2 := hl
    simp only [filepathJoin] at hl2 ⊢
    simp [hl2]
  obtain ⟨s2, db, hg, hp, hfs, h1, h2, h3, h4⟩ :=
    getOrOpen_of_ledger (filepathDir (filepathJoin outputDir relPath))
      { s with world := { s.world with fs := s.world.fs } } names hc hl
  have hc2 : CacheOk s2 := getOrOpen_cacheOk _ _ _ _ hc hg
  have he : fileExistsInDB db (filepathBase (filepathJoin outputDir relPath)) s2.world =
      .ok true := by
    rw [fileExistsInDB_of_ledger db _ s2.world names (by rw [hp, hfs]; exact hl)]
    simp [hm]
  refine ⟨St.mk (println ("[Skipped] " ++ pathString relPath ++ " (already in DB)") s2.world)
    s2.dbs, ?_, ?_, ?_, ?_, ?_, ?_, ?_⟩
  · unfold processFile
    rw [osMkdirAll_of_dir _ _ hdir]
    simp only
    rw [hg]
    simp only
    rw [he]
  · simp [println, h1]
  · simp [println, h2]
  · simp [println, h3]
  · simp [println, hfs]
  · simp [println, h4]
  · exact hc2

/-! ## The shape of a walk -/

/-- Reachability is transitive. -/
theorem reach_trans {fn : WalkFn} {s s1 s2 : St} (h1 : Reach fn s s1) (h2 : Reach fn s1 s2) :
    Reach fn s s2 := by
  induction h2 with
  | refl => exact h1
  | step path d err _ hstep ih => exact Reach.step path d err ih hstep

/-- A trace after reachable states is a trace. -/
theorem trace_after {fn : WalkFn} {s s1 s2 : St} {r : Option Error} (h1 : Reach fn s s1)
    (h2 : Trace fn s1 s2 r) : Trace fn s s2 r := by
  cases r with
  | none => exact reach_trans h1 h2
  | some e =>
    obtain ⟨s0, path, d, err, h3, h4⟩ := h2
    exact ⟨s0, path, d, err, reach_trans h1 h3, h4⟩

/-- One call of the callback is a trace. -/
theorem trace_call {fn : WalkFn} {s s1 : St} {r : Option Error} (path : Path)
    (d : Option DirEntry) (err : Option Cause) (h : fn path d err s = (s1, r)) :
    Trace fn s s1 r := by
  cases r with
  | none => exact Reach.step path d err (Reach.refl s) h
  | some e => exact ⟨s, path, d, err, Reach.refl s, h⟩

/-- The loop over the entries of a directory makes a trace when the walks of the entries
do. -/
theorem walkEntries_trace (fn : WalkFn)
    (recur : Path → DirEntry → St → Option (St × Option Error))
    (hrec : ∀ p d s s1 r, recur p d s = some (s1, r) → Trace fn s s1 r)
    (path : Path) (ds : List DirEntry) (s s1 : St) (r : Option Error)
    (h : walkEntries recur path ds s = some (s1, r)) : Trace fn s s1 r := by
  induction ds generalizing s with
  | nil =>
    simp [walkEntries] at h
    obtain ⟨h1, h2⟩ := h
    subst h1; subst h2
    exact Reach.refl s
  | cons d ds ih =>
    unfold walkEntries at h
    split at h
    · cases h
    · rename_i s2 e hr
      cases h
      exact hrec _ _ _ _ _ hr
    · rename_i s2 hr
      exact trace_after (hrec _ _ _ _ _ hr) (ih s2 h)

/-- A walk makes a trace. -/
theorem walkDir_trace (fn : WalkFn) (fuel : Nat) (path : Path) (d : DirEntry) (s s1 : St)
    (r : Option Error) (h : walkDir fn fuel path d s = some (s1, r)) : Trace fn s s1 r := by
  induction fuel generalizing path d s s1 r with
  | zero => simp [walkDir] at h
  | succ fuel ih =>
    unfold walkDir at h
    split at h
    · rename_i s2 e hf
      cases h
      exact trace_call path (some d) none hf
    · rename_i s2 hf
      have h0 : Reach fn s s2 := Reach.step path (some d) none (Reach.refl s) hf
      split at h
      · cases h
        exact h0
      · split at h
        · rename_i c hrd
          simp only [Option.some.injEq] at h
          exact trace_after h0 (trace_call path (some d) (some c) h)
        · rename_i ds hrd
          exact trace_after h0
            (walkEntries_trace fn (walkDir fn fuel) (fun p d s s1 r => ih p d s s1 r) path ds
              s2 s1 r h)

/-- The walk of `filepath.WalkDir` makes a trace. -/
theorem filepathWalkDir_trace (fn : WalkFn) (fuel : Nat) (root : Path) (s s1 : St)
    (r : Option Error) (h : filepathWalkDir fn fuel root s = some (s1, r)) :
    Trace fn s s1 r := by
  unfold filepathWalkDir at h
  split at h
  · simp only [Option.some.injEq] at h
    exact trace_call root none (some .notExist) h
  · exact walkDir_trace fn fuel root _ s s1 r h

/-- What `run` returns comes from a walk that starts with an empty map, followed by the
closing of the handles of the map. -/
theorem run_eq (inputDir outputDir : Path) (fuel : Nat) (w w1 : World) (r : Option Error)
    (h : run inputDir outputDir fuel w = some (w1, r)) :
    ∃ s1, filepathWalkDir (visit inputDir outputDir) fuel inputDir ⟨w, []⟩ = some (s1, r) ∧
      w1 = closeAll s1.dbs s1.world := by
  unfold run at h
  split at h
  · cases h
  · rename_i s1 err hw
    simp only [Option.some.injEq, Prod.mk.injEq] at h
    obtain ⟨h1, h2⟩ := h
    subst h1; subst h2
    exact ⟨s1, hw, rfl⟩

/-- The deferred function of `run` closes the handles of the map and changes nothing else. -/
theorem closeAll_eq (dbs : List (Path × Handle)) (w : World) :
    closeAll dbs w = { w with closed := w.closed ++ dbs.map Prod.snd } := by
  induction dbs generalizing w with
  | nil => simp [closeAll]
  | cons a rest ih =>
    obtain ⟨p, h⟩ := a
    simp [closeAll, ih, dbClose]

/-! ## Reading directories -/

/-- The node reached along a concatenation of paths. -/
theorem get_append (fs : Node) (p q : Path) :
    fs.get (p ++ q) = (fs.get p).bind (fun n => n.get q) := by
  induction p generalizing fs with
  | nil => simp [Node.get]
  | cons x xs ih =>
    cases fs with
    | file c => simp [Node.get]
    | dir kids =>
      cases hk : findKid x kids with
      | none => simp [Node.get, hk]
      | some k => simp [Node.get, hk, ih k]

/-- `stat` below a path at which a node is. -/
theorem stat_append_of_get (fs n : Node) (p q : Path) (h : fs.get p = some n) :
    stat fs (p ++ q) = stat n q := by
  simp [stat, get_append, h]

/-- `stat` tells that a path is a directory exactly when a directory node is there. -/
theorem stat_eq_dir_iff (fs : Node) (p : Path) :
    stat fs p = some .dir ↔ ∃ kids, fs.get p = some (.dir kids) := by
  unfold stat
  cases h : fs.get p with
  | none => simp
  | some n =>
    cases n with
    | file c => simp [Node.kind]
    | dir kids => simp [Node.kind]

/-- Inserting a name into a list of names adds that name and no other. -/
theorem mem_insertName (n m : String) (l : List String) :
    m ∈ insertName n l ↔ m = n ∨ m ∈ l := by
  induction l with
  | nil => simp [insertName]
  | cons a l ih =>
    unfold insertName
    split
    · rename_i h
      subst h
      simp
    · split
      · simp
      · simp only [List.mem_cons, ih]
        tauto

/-- Sorting keeps the names. -/
theorem mem_sortNames (m : String) (l : List String) : m ∈ sortNames l ↔ m ∈ l := by
  induction l with
  | nil => simp [sortNames]
  | cons a l ih => simp [sortNames, mem_insertName, ih]

/-- A name is among the entries of a directory exactly when an entry is found for it. -/
theorem mem_keys_iff (x : String) (kids : List (String × Node)) :
    x ∈ kids.map Prod.fst ↔ ∃ k, findKid x kids = some k := by
  induction kids with
  | nil => simp [findKid]
  | cons a kids ih =>
    obtain ⟨y, n⟩ := a
    by_cases hy : y = x
    · simp [findKid, hy]
    · have hxy : ¬ x = y := fun e => hy e.symm
      simp [findKid, hy, hxy, ih]

/-- `stat` of an entry of a directory. -/
theorem stat_entry (fs : Node) (p : Path) (kids : List (String × Node)) (x : String)
    (h : fs.get p = some (.dir kids)) :
    stat fs (p ++ [x]) = (findKid x kids).map Node.kind := by
  rw [stat_append_of_get fs _ p [x] h, stat_dir_cons]
  cases findKid x kids <;> simp [stat_nil]

/-- Every entry that `os.ReadDir` returns is in the directory, as a directory or not as the
entry tells. -/
theorem osReadDir_mem (fs : Node) (p : Path) (ds : List DirEntry) (d : DirEntry)
    (h : osReadDir fs p = .ok ds) (hd : d ∈ ds) :
    ∃ k, stat fs (p ++ [d.name]) = some k ∧ (d.isDir = true ↔ k = .dir) := by
  unfold osReadDir at h
  split at h
  · cases h
  · cases h
  · rename_i kids hg
    simp only [Except.ok.injEq] at h
    subst h
    simp only [List.mem_map, mem_sortNames] at hd
    obtain ⟨n, hn, rfl⟩ := hd
    obtain ⟨k, hk⟩ := (mem_keys_iff n kids).1 (by simpa using hn)
    refine ⟨k.kind, by simp [stat_entry fs p kids n hg, hk], ?_⟩
    simp only [hk]
    cases k <;> simp [isDirNode, Node.kind]

/-- Everything that is in a directory is among the entries that `os.ReadDir` returns. -/
theorem osReadDir_complete (fs : Node) (p : Path) (ds : List DirEntry) (x : String)
    (h : osReadDir fs p = .ok ds) (hx : stat fs (p ++ [x]) ≠ none) :
    ∃ d, d ∈ ds ∧ d.name = x := by
  unfold osReadDir at h
  split at h
  · cases h
  · cases h
  · rename_i kids hg
    simp only [Except.ok.injEq] at h
    subst h
    rw [stat_entry fs p kids x hg] at hx
    cases hk : findKid x kids with
    | none => simp [hk] at hx
    | some k =>
      exact ⟨⟨x, isDirNode (findKid x kids)⟩,
        List.mem_map.2 ⟨x, (mem_sortNames _ _).2 ((mem_keys_iff x kids).2 ⟨k, hk⟩), rfl⟩, rfl⟩

/-- On a directory `os.ReadDir` succeeds. -/
theorem osReadDir_of_dir (fs : Node) (p : Path) (h : stat fs p = some .dir) :
    ∃ ds, osReadDir fs p = .ok ds := by
  obtain ⟨kids, hk⟩ := (stat_eq_dir_iff fs p).1 h
  exact ⟨(sortNames (kids.map Prod.fst)).map (fun n => ⟨n, isDirNode (findKid n kids)⟩),
    by simp [osReadDir, hk]⟩

/-! ## Fuel -/

/-- The loop over the entries of a directory gives the same result with a recursion that
gives the same results. -/
theorem walkEntries_mono (r1 r2 : Path → DirEntry → St → Option (St × Option Error))
    (h12 : ∀ p d s x, r1 p d s = some x → r2 p d s = some x) (path : Path)
    (ds : List DirEntry) (s : St) (x : St × Option Error)
    (h : walkEntries r1 path ds s = some x) : walkEntries r2 path ds s = some x := by
  induction ds generalizing s with
  | nil => simpa [walkEntries] using h
  | cons d ds ih =>
    unfold walkEntries at h ⊢
    split at h
    · cases h
    · rename_i s1 e hr
      rw [h12 _ _ _ _ hr]
      exact h
    · rename_i s1 hr
      rw [h12 _ _ _ _ hr]
      exact ih s1 h

/-- A walk that returns with some fuel returns the same with more fuel. -/
theorem walkDir_fuel_succ (fn : WalkFn) (fuel : Nat) (path : Path) (d : DirEntry) (s : St)
    (x : St × Option Error) (h : walkDir fn fuel path d s = some x) :
    walkDir fn (fuel + 1) path d s = some x := by
  induction fuel generalizing path d s x with
  | zero => simp [walkDir] at h
  | succ fuel ih =>
    rw [walkDir] at h ⊢
    cases hf : fn path (some d) none s with
    | mk s1 r1 =>
      rw [hf] at h
      cases r1 with
      | some e => exact h
      | none =>
        simp only at h ⊢
        by_cases hd : (!d.isDir) = true
        · rw [if_pos hd] at h ⊢
          exact h
        · rw [if_neg hd] at h ⊢
          cases hrd : osReadDir s1.world.fs path with
          | error c =>
            rw [hrd] at h
            exact h
          | ok ds =>
            rw [hrd] at h
            exact walkEntries_mono _ _ (fun p d s x hx => ih p d s x hx) path ds s1 x h

/-- A walk that returns with some fuel returns the same with any larger fuel. -/
theorem walkDir_fuel_le (fn : WalkFn) (fuel fuel1 : Nat) (hle : fuel ≤ fuel1) (path : Path)
    (d : DirEntry) (s : St) (x : St × Option Error) (h : walkDir fn fuel path d s = some x) :
    walkDir fn fuel1 path d s = some x := by
  induction hle with
  | refl => exact h
  | step _ ih => exact walkDir_fuel_succ fn _ path d s x ih

/-- The walk of `filepath.WalkDir` that returns with some fuel returns the same with any
larger fuel. -/
theorem filepathWalkDir_fuel_le (fn : WalkFn) (fuel fuel1 : Nat) (hle : fuel ≤ fuel1)
    (root : Path) (s : St) (x : St × Option Error)
    (h : filepathWalkDir fn fuel root s = some x) :
    filepathWalkDir fn fuel1 root s = some x := by
  unfold filepathWalkDir at h ⊢
  cases hs : stat s.world.fs root with
  | none =>
    rw [hs] at h
    exact h
  | some k =>
    rw [hs] at h
    exact walkDir_fuel_le fn fuel fuel1 hle _ _ _ _ h

/-- A run that returns with some fuel returns the same with any larger fuel. -/
theorem run_fuel_le (inputDir outputDir : Path) (fuel fuel1 : Nat) (hle : fuel ≤ fuel1)
    (w : World) (x : World × Option Error) (h : run inputDir outputDir fuel w = some x) :
    run inputDir outputDir fuel1 w = some x := by
  unfold run at h ⊢
  cases hw : filepathWalkDir (visit inputDir outputDir) fuel inputDir ⟨w, []⟩ with
  | none =>
    rw [hw] at h
    cases h
  | some y =>
    rw [hw] at h
    rw [filepathWalkDir_fuel_le _ fuel fuel1 hle _ _ _ hw]
    exact h

/-! ## Depth of the tree -/

/-- Every tree has a bound on the length of the paths at which something is. -/
theorem exists_depth (fs : Node) : ∃ n, ∀ q, fs.get q ≠ none → q.length < n := by
  refine @Node.rec
    (fun fs => ∃ n, ∀ q, fs.get q ≠ none → q.length < n)
    (fun kids => ∃ n, ∀ x k q, findKid x kids = some k → k.get q ≠ none → q.length < n)
    (fun a => ∃ n, ∀ q, a.2.get q ≠ none → q.length < n)
    ?_ ?_ ?_ ?_ ?_ fs
  · intro c
    refine ⟨1, fun q hq => ?_⟩
    cases q with
    | nil => simp
    | cons x xs => simp [Node.get] at hq
  · intro kids ih
    obtain ⟨n, hn⟩ := ih
    refine ⟨n + 1, fun q hq => ?_⟩
    cases q with
    | nil => simp
    | cons x xs =>
      cases hk : findKid x kids with
      | none => simp [Node.get, hk] at hq
      | some k =>
        have := hn x k xs hk (by simpa [Node.get, hk] using hq)
        simp only [List.length_cons]
        omega
  · exact ⟨0, fun x k q h => by simp [findKid] at h⟩
  · intro a kids iha ihk
    obtain ⟨n1, h1⟩ := iha
    obtain ⟨n2, h2⟩ := ihk
    obtain ⟨y, m⟩ := a
    refine ⟨max n1 n2, fun x k q hk hq => ?_⟩
    by_cases hy : y = x
    · simp [findKid, hy] at hk
      subst hk
      exact lt_of_lt_of_le (h1 q hq) (le_max_left _ _)
    · simp [findKid, hy] at hk
      exact lt_of_lt_of_le (h2 x k q hk hq) (le_max_right _ _)
  · intro x n ih
    exact ih

/-- Below every path of a tree the depth is bounded. -/
theorem exists_depth_below (fs : Node) (p : Path) :
    ∃ n, ∀ q, stat fs (p ++ q) ≠ none → q.length < n := by
  obtain ⟨n, hn⟩ := exists_depth fs
  refine ⟨n, fun q hq => ?_⟩
  have : (p ++ q).length < n := hn (p ++ q) (by
    intro e
    exact hq (by simp [stat, e]))
  simp at this
  omega

/-! ## Walks that leave the file system as it is -/

/-- The loop over entries when the walk of every entry succeeds and keeps an invariant. -/
theorem walkEntries_static (recur : Path → DirEntry → St → Option (St × Option Error))
    (J : St → Prop) (path : Path) (ds : List DirEntry)
    (hrec : ∀ d s, d ∈ ds → J s → ∃ s1, recur (path ++ [d.name]) d s = some (s1, none) ∧ J s1)
    (s : St) (hs : J s) :
    ∃ s1, walkEntries recur path ds s = some (s1, none) ∧ J s1 := by
  induction ds generalizing s with
  | nil => exact ⟨s, by simp [walkEntries], hs⟩
  | cons d ds ih =>
    obtain ⟨s1, h1, h2⟩ := hrec d s (by simp) hs
    obtain ⟨s2, h3, h4⟩ := ih (fun d s hd hJ => hrec d s (by simp [hd]) hJ) s1 h2
    exact ⟨s2, by simp [walkEntries, h1, h3], h4⟩

/-- A walk over a tree that the callback leaves as it is: when the callback succeeds on
every entry below the root and keeps an invariant, the walk returns no error as soon as the
fuel exceeds the depth of the tree, and it keeps the invariant and the tree. -/
theorem walkDir_static (fn : WalkFn) (fs0 : Node) (I : St → Prop) (root : Path)
    (hstep : ∀ q d s k, I s → s.world.fs = fs0 → stat fs0 (root ++ q) = some k →
      (d.isDir = true ↔ k = .dir) →
      ∃ s1, fn (root ++ q) (some d) none s = (s1, none) ∧ I s1 ∧ s1.world.fs = fs0)
    (fuel : Nat) (q : Path) (d : DirEntry) (s : St) (k : Kind)
    (hdepth : ∀ r, stat fs0 (root ++ q ++ r) ≠ none → r.length < fuel)
    (hI : I s) (hfs : s.world.fs = fs0) (hk : stat fs0 (root ++ q) = some k)
    (hd : d.isDir = true ↔ k = .dir) :
    ∃ s1, walkDir fn fuel (root ++ q) d s = some (s1, none) ∧ I s1 ∧ s1.world.fs = fs0 := by
  induction fuel generalizing q d s k with
  | zero =>
    have := hdepth [] (by simp [hk])
    simp at this
  | succ fuel ih =>
    obtain ⟨s1, h1, h2, h3⟩ := hstep q d s k hI hfs hk hd
    rw [walkDir, h1]
    simp only
    by_cases hdir : d.isDir = true
    · have hkd : stat fs0 (root ++ q) = some .dir := by rw [hk, hd.1 hdir]
      obtain ⟨ds, hds⟩ := osReadDir_of_dir fs0 (root ++ q) hkd
      simp only [hdir, Bool.not_true, Bool.false_eq_true, if_false, h3, hds]
      apply walkEntries_static (walkDir fn fuel) (fun s => I s ∧ s.world.fs = fs0)
        (root ++ q) ds _ s1 ⟨h2, h3⟩
      intro d1 s2 hd1 hs2
      obtain ⟨k1, hk1, hkd1⟩ := osReadDir_mem fs0 (root ++ q) ds d1 hds hd1
      rw [List.append_assoc] at hk1 ⊢
      exact ih (q ++ [d1.name]) d1 s2 k1 (fun r hr => by
          have := hdepth (d1.name :: r) (by simpa using hr)
          simpa using this) hs2.1 hs2.2 hk1 hkd1
    · simp only [hdir, Bool.not_false, if_true]
      exact ⟨s1, rfl, h2, h3⟩

/-! ## Nothing is ever removed -/

/-- Every tree keeps what it holds. -/
theorem grow_refl (fs : Node) : Grow fs fs :=
  fun _ => ⟨fun h => h, fun c h => ⟨c, h⟩⟩

/-- Keeping is transitive. -/
theorem grow_trans {fs fs1 fs2 : Node} (h1 : Grow fs fs1) (h2 : Grow fs1 fs2) :
    Grow fs fs2 := by
  intro q
  refine ⟨fun h => (h2 q).1 ((h1 q).1 h), fun c h => ?_⟩
  obtain ⟨c1, hc1⟩ := (h1 q).2 c h
  exact (h2 q).2 c1 hc1

/-- Trees that `stat` cannot tell apart keep each other. -/
theorem grow_of_eq {fs fs1 : Node} (h : ∀ q, stat fs1 q = stat fs q) : Grow fs fs1 := by
  intro q
  rw [h q]
  exact ⟨fun h => h, fun c h => ⟨c, h⟩⟩

/-- What is there stays there as something of the same kind. -/
theorem grow_some {fs fs1 : Node} (h : Grow fs fs1) (q : Path) (k : Kind)
    (hk : stat fs q = some k) : ∃ k1, stat fs1 q = some k1 ∧ (k = .dir ↔ k1 = .dir) := by
  cases k with
  | dir => exact ⟨.dir, (h q).1 hk, by simp⟩
  | file c =>
    obtain ⟨c1, hc1⟩ := (h q).2 c hk
    exact ⟨.file c1, hc1, by simp⟩

/-- `writeAt` removes nothing. -/
theorem grow_writeAt (c : Content) (fs fs1 : Node) (p : Path)
    (h : writeAt c fs p = .ok fs1) : Grow fs fs1 := by
  intro q
  rw [stat_writeAt c fs fs1 p q h]
  by_cases hq : q = p
  · subst hq
    refine ⟨fun hd => absurd h (writeAt_dir_fails c fs q hd fs1), fun c0 _ => ⟨c, by simp⟩⟩
  · simp only [hq, if_false]
    exact ⟨fun h => h, fun c h => ⟨c, h⟩⟩

/-- `os.MkdirAll` removes nothing. -/
theorem grow_osMkdirAll (fs fs1 : Node) (p : Path) (h : osMkdirAll fs p = .ok fs1) :
    Grow fs fs1 := by
  intro q
  exact ⟨fun hq => stat_osMkdirAll_of_some fs fs1 p q _ h hq,
    fun c hq => ⟨c, stat_osMkdirAll_of_some fs fs1 p q _ h hq⟩⟩

/-- `copyFile` removes nothing, whatever it returns. -/
theorem grow_copyFile (src dst : Path) (w w1 : World) (r : Option Cause)
    (h : copyFile src dst w = (w1, r)) : Grow w.fs w1.fs := by
  unfold copyFile at h
  simp only at h
  split at h
  · cases h; exact grow_refl _
  · split at h
    · cases h; exact grow_refl _
    · rename_i fs1 hc
      have g1 : Grow w.fs fs1 := grow_writeAt _ _ _ _ hc
      split at h
      · cases h; exact g1
      · cases h; exact g1
      · split at h
        · cases h; exact g1
        · rename_i fs2 hc2
          cases h
          exact grow_trans g1 (grow_writeAt _ _ _ _ hc2)

/-- `initDB` removes nothing, whatever it returns. -/
theorem grow_initDB (h : Handle) (w w1 : World) (r : Option Cause)
    (hi : initDB h w = (w1, r)) : Grow w.fs w1.fs := by
  unfold initDB at hi
  split at hi
  · cases hi; exact grow_refl _
  · cases hi; exact grow_refl _
  · cases hi; exact grow_refl _
  · split at hi
    · cases hi; exact grow_refl _
    · rename_i fs1 hc
      cases hi
      exact grow_writeAt _ _ _ _ hc

/-- `registerFileInDB` removes nothing, whatever it returns. -/
theorem grow_registerFileInDB (h : Handle) (name : String) (w w1 : World)
    (r : Option Cause) (hr : registerFileInDB h name w = (w1, r)) : Grow w.fs w1.fs := by
  cases r with
  | some c =>
    rw [(registerFileInDB_logs h name w w1 _ hr).2.2.2.2.2 (by simp)]
    exact grow_refl _
  | none =>
    obtain ⟨names, h1, -, h3⟩ := registerFileInDB_ok h name w w1 hr
    intro q
    rw [h3 q]
    by_cases hq : q = h.path
    · subst hq
      simp [h1]
    · simp only [hq, if_false]
      exact ⟨fun h => h, fun c h => ⟨c, h⟩⟩

/-- `getOrOpen` removes nothing, whatever it returns. -/
theorem grow_getOrOpen (d : Path) (s s2 : St) (r : Except Error Handle)
    (h : getOrOpen d s = (s2, r)) : Grow s.world.fs s2.world.fs := by
  cases hl : s.dbs.lookup d with
  | some db1 =>
    rw [getOrOpen_hit d s db1 hl] at h
    cases h
    exact grow_refl _
  | none =>
    rw [getOrOpen_miss d s hl] at h
    split at h
    · rename_i w2 c hi
      cases h
      have g := grow_initDB _ _ _ _ hi
      exact g
    · rename_i w2 hi
      cases h
      have g := grow_initDB _ _ _ _ hi
      exact g

/-- The copy and the registration remove nothing, whatever they return. -/
theorem grow_copyAndRegister (path destPath relPath : Path) (db : Handle) (s s1 : St)
    (r : Option Error) (h : copyAndRegister path destPath relPath db s = (s1, r)) :
    Grow s.world.fs s1.world.fs := by
  unfold copyAndRegister at h
  split at h
  · rename_i w4 c hc
    cases h
    have g := grow_copyFile _ _ _ _ _ hc
    exact g
  · rename_i w4 hc
    have g1 : Grow s.world.fs w4.fs := by
      have g := grow_copyFile _ _ _ _ _ hc
      exact g
    split at h
    · rename_i w5 c hr
      cases h
      exact grow_trans g1 (grow_registerFileInDB _ _ _ _ _ hr)
    · rename_i w5 hr
      cases h
      exact grow_trans g1 (grow_registerFileInDB _ _ _ _ _ hr)

/-- `processFile` removes nothing, whatever it returns. -/
theorem grow_processFile (outputDir path relPath : Path) (s s1 : St) (r : Option Error)
    (h : processFile outputDir path relPath s = (s1, r)) : Grow s.world.fs s1.world.fs := by
  unfold processFile at h
  split at h
  · cases h; exact grow_refl _
  · rename_i fs1 hm
    have g1 : Grow s.world.fs fs1 := grow_osMkdirAll _ _ _ hm
    split at h
    · rename_i s2 e hg
      cases h
      exact grow_trans g1 (grow_getOrOpen _ _ _ _ hg)
    · rename_i s2 db hg
      have g2 : Grow s.world.fs s2.world.fs := grow_trans g1 (grow_getOrOpen _ _ _ _ hg)
      split at h
      · cases h; exact g2
      · cases h; exact g2
      · exact grow_trans g2 (grow_copyAndRegister _ _ _ _ _ _ _ h)

/-- The callback removes nothing, whatever it returns. -/
theorem grow_visit (inputDir outputDir path : Path) (d : Option DirEntry)
    (err : Option Cause) (s s1 : St) (r : Option Error)
    (h : visit inputDir outputDir path d err s = (s1, r)) : Grow s.world.fs s1.world.fs := by
  unfold visit at h
  split at h
  · cases h; exact grow_refl _
  · split at h
    · cases h; exact grow_refl _
    · split at h
      · cases h; exact grow_refl _
      · split at h
        · cases h; exact grow_refl _
        · split at h
          · cases h; exact grow_refl _
          · exact grow_processFile _ _ _ _ _ _ h

/-- A run removes nothing from the states it goes through. -/
theorem grow_reach (inputDir outputDir : Path) (s s1 : St)
    (h : Reach (visit inputDir outputDir) s s1) : Grow s.world.fs s1.world.fs := by
  induction h with
  | refl => exact grow_refl _
  | step path d err _ hstep ih => exact grow_trans ih (grow_visit _ _ _ _ _ _ _ _ hstep)

/-! ## Bookkeeping of the handles -/

/-- A key is missing in a map exactly when it is not among its keys. -/
theorem lookup_eq_none_iff (l : List (Path × Handle)) (d : Path) :
    l.lookup d = none ↔ d ∉ l.map Prod.fst := by
  induction l with
  | nil => simp [List.lookup]
  | cons a l ih =>
    obtain ⟨e, h⟩ := a
    by_cases hde : d = e
    · subst hde
      have : (d == d) = true := by simp
      simp only [List.lookup, this, List.map_cons, List.mem_cons, true_or, not_true_eq_false]
      simp
    · have : (d == e) = false := by simpa using hde
      simp only [List.lookup, this, ih, List.map_cons, List.mem_cons, hde, false_or]

/-- The store files of the handles of a well-kept map are pairwise different. -/
theorem books_paths_nodup (dbs : List (Path × Handle)) (hn : (dbs.map Prod.fst).Nodup)
    (hp : ∀ d h, (d, h) ∈ dbs → h.path = filepathJoin d ["igcopy.db"]) :
    ((dbs.map Prod.snd).map Handle.path).Nodup := by
  induction dbs with
  | nil => simp
  | cons a dbs ih =>
    obtain ⟨d, h⟩ := a
    simp only [List.map_cons, List.nodup_cons] at hn ⊢
    refine ⟨?_, ih hn.2 (fun e h1 hm => hp e h1 (by simp [hm]))⟩
    intro hmem
    simp only [List.mem_map] at hmem
    obtain ⟨h2, ⟨b, hb, rfl⟩, hpb⟩ := hmem
    rw [hp b.1 b.2 (by simp [hb]), hp d h (by simp)] at hpb
    have : b.1 = d := by simpa [filepathJoin] using hpb
    exact hn.1 (List.mem_map.2 ⟨b, hb, this⟩)

/-- At the start of a run the books are in order. -/
theorem books_init (w : World) : Books w ⟨w, []⟩ := by
  simp [Books]

/-- Books in order are books in order at the end. -/
theorem books_toEnd {w0 : World} {s : St} (h : Books w0 s) : BooksEnd w0 s := by
  obtain ⟨h1, h2, h3, h4⟩ := h
  unfold BooksEnd
  refine ⟨[], by simpa using h1, by simpa using h2, ?_, ?_⟩
  · simpa using books_paths_nodup s.dbs h3 h4
  · intro h hh
    simp only [List.append_nil, List.mem_map] at hh
    obtain ⟨a, ha, rfl⟩ := hh
    exact ⟨a.1, h4 a.1 a.2 ha⟩

/-- What `getOrOpen` does to the books. -/
theorem getOrOpen_books (w0 : World) (d : Path) (s s2 : St) (r : Except Error Handle)
    (hb : Books w0 s) (h : getOrOpen d s = (s2, r)) :
    (∀ db, r = .ok db → Books w0 s2) ∧ (∀ e, r = .error e → BooksEnd w0 s2) := by
  obtain ⟨h1, h2, h3, h4⟩ := hb
  cases hl : s.dbs.lookup d with
  | some db1 =>
    rw [getOrOpen_hit d s db1 hl] at h
    cases h
    exact ⟨fun _ _ => by unfold Books; exact ⟨h1, h2, h3, h4⟩, fun e he => by cases he⟩
  | none =>
    have hd : d ∉ s.dbs.map Prod.fst := (lookup_eq_none_iff _ _).1 hl
    rw [getOrOpen_miss d s hl] at h
    split at h
    · rename_i w2 c hi
      cases h
      have hlog := initDB_logs _ _ _ _ hi
      refine ⟨fun db hdb => (by cases hdb), fun e _ => ?_⟩
      unfold BooksEnd
      refine ⟨[⟨s.world.opened.length, filepathJoin d ["igcopy.db"]⟩], ?_, ?_, ?_, ?_⟩
      · simp only [dbClose, hlog.2.2.2.1, h1]
        simp
      · simp only [dbClose, hlog.2.2.2.2.1, h2]
      · rw [List.map_append, List.nodup_append]
        refine ⟨books_paths_nodup s.dbs h3 h4, by simp, ?_⟩
        intro p hp1 hp2
        simp only [List.map_cons, List.map_nil, List.mem_singleton] at hp2
        subst hp2
        simp only [List.mem_map] at hp1
        obtain ⟨hh, ⟨a, ha, rfl⟩, hpa⟩ := hp1
        rw [h4 a.1 a.2 ha] at hpa
        have : a.1 = d := by simpa [filepathJoin] using hpa
        exact hd (List.mem_map.2 ⟨a, ha, this⟩)
      · intro hh hmem
        simp only [List.mem_append, List.mem_map, List.mem_singleton] at hmem
        rcases hmem with ⟨a, ha, rfl⟩ | rfl
        · exact ⟨a.1, h4 a.1 a.2 ha⟩
        · exact ⟨d, rfl⟩
    · rename_i w2 hi
      cases h
      have hlog := initDB_logs _ _ _ _ hi
      refine ⟨fun db _ => ?_, fun e he => by cases he⟩
      unfold Books
      refine ⟨?_, ?_, ?_, ?_⟩
      · simp only [hlog.2.2.2.1, h1]
        simp
      · simp only [hlog.2.2.2.2.1, h2]
      · rw [List.map_append, List.nodup_append]
        refine ⟨h3, by simp, ?_⟩
        intro p hp1 hp2
        simp only [List.map_cons, List.map_nil, List.mem_singleton] at hp2
        subst hp2
        exact hd hp1
      · intro e hh hmem
        simp only [List.mem_append, List.mem_singleton, Prod.mk.injEq] at hmem
        rcases hmem with hm | ⟨rfl, rfl⟩
        · exact h4 e hh hm
        · rfl

/-- The copy and the registration leave the books alone. -/
theorem copyAndRegister_books (path destPath relPath : Path) (db : Handle) (s s1 : St)
    (r : Option Error) (h : copyAndRegister path destPath relPath db s = (s1, r)) :
    s1.dbs = s.dbs ∧ s1.world.opened = s.world.opened ∧ s1.world.closed = s.world.closed := by
  unfold copyAndRegister at h
  split at h
  · rename_i w4 c hc
    cases h
    have := copyFile_logs _ _ _ _ _ hc
    exact ⟨rfl, this.2.2.2.1, this.2.2.2.2⟩
  · rename_i w4 hc
    have h4 := copyFile_logs _ _ _ _ _ hc
    split at h
    · rename_i w5 c hr
      cases h
      have h5 := registerFileInDB_logs _ _ _ _ _ hr
      exact ⟨rfl, by rw [h5.2.2.1, h4.2.2.2.1]; rfl, by rw [h5.2.2.2.1, h4.2.2.2.2]; rfl⟩
    · rename_i w5 hr
      cases h
      have h5 := registerFileInDB_logs _ _ _ _ _ hr
      exact ⟨rfl, by rw [h5.2.2.1, h4.2.2.2.1]; rfl, by rw [h5.2.2.2.1, h4.2.2.2.2]; rfl⟩

/-- Books that differ in nothing that the books are about. -/
theorem books_congr {w0 : World} {s s1 : St} (hb : Books w0 s) (h1 : s1.dbs = s.dbs)
    (h2 : s1.world.opened = s.world.opened) (h3 : s1.world.closed = s.world.closed) :
    Books w0 s1 := by
  unfold Books at hb ⊢
  rw [h1, h2, h3]
  exact hb

/-- What `processFile` does to the books. -/
theorem processFile_books (w0 : World) (outputDir path relPath : Path) (s s1 : St)
    (r : Option Error) (hb : Books w0 s)
    (h : processFile outputDir path relPath s = (s1, r)) :
    (r = none → Books w0 s1) ∧ BooksEnd w0 s1 := by
  unfold processFile at h
  split at h
  · cases h
    exact ⟨fun hr => (by cases hr), (books_toEnd hb)⟩
  · rename_i fs1 hm
    have hb1 : Books w0 { s with world := { s.world with fs := fs1 } } := hb
    split at h
    · rename_i s2 e hg
      cases h
      exact ⟨fun hr => (by cases hr), (getOrOpen_books w0 _ _ _ _ hb1 hg).2 e rfl⟩
    · rename_i s2 db hg
      have hb2 : Books w0 s2 := (getOrOpen_books w0 _ _ _ _ hb1 hg).1 db rfl
      split at h
      · cases h
        exact ⟨fun hr => (by cases hr), (books_toEnd hb2)⟩
      · cases h
        have : Books w0 (St.mk
            (println ("[Skipped] " ++ pathString relPath ++ " (already in DB)") s2.world)
            s2.dbs) := hb2
        exact ⟨fun _ => this, (books_toEnd this)⟩
      · obtain ⟨e1, e2, e3⟩ := copyAndRegister_books _ _ _ _ _ _ _ h
        have : Books w0 s1 := books_congr hb2 e1 e2 e3
        exact ⟨fun _ => this, (books_toEnd this)⟩

/-- What the callback does to the books. -/
theorem visit_books (w0 : World) (inputDir outputDir path : Path) (d : Option DirEntry)
    (err : Option Cause) (s s1 : St) (r : Option Error) (hb : Books w0 s)
    (h : visit inputDir outputDir path d err s = (s1, r)) :
    (r = none → Books w0 s1) ∧ BooksEnd w0 s1 := by
  unfold visit at h
  split at h
  · cases h; exact ⟨fun _ => hb, (books_toEnd hb)⟩
  · split at h
    · cases h; exact ⟨fun _ => hb, (books_toEnd hb)⟩
    · split at h
      · cases h; exact ⟨fun _ => hb, (books_toEnd hb)⟩
      · split at h
        · cases h; exact ⟨fun _ => hb, (books_toEnd hb)⟩
        · split at h
          · cases h; exact ⟨fun _ => hb, (books_toEnd hb)⟩
          · exact processFile_books w0 _ _ _ _ _ _ hb h

/-- The books are in order in every state that a run can be in. -/
theorem reach_books (w0 : World) (inputDir outputDir : Path) (s s1 : St)
    (hr : Reach (visit inputDir outputDir) s s1) (hb : Books w0 s) : Books w0 s1 := by
  induction hr with
  | refl => exact hb
  | step path d err _ hstep ih => exact (visit_books w0 _ _ _ _ _ _ _ _ ih hstep).1 rfl

/-- The books are in order at the end of every walk. -/
theorem trace_books (w0 : World) (inputDir outputDir : Path) (s s1 : St) (r : Option Error)
    (ht : Trace (visit inputDir outputDir) s s1 r) (hb : Books w0 s) : BooksEnd w0 s1 := by
  cases r with
  | none => exact books_toEnd (reach_books w0 _ _ _ _ ht hb)
  | some e =>
    obtain ⟨s0, path, d, err, h1, h2⟩ := ht
    exact (visit_books w0 _ _ _ _ _ _ _ _ (reach_books w0 _ _ _ _ h1 hb) h2).2

/-! ## Paths of the destination -/

/-- `filepath.Rel` succeeds exactly on the paths under the base. -/
theorem filepathRel_eq_some (a p r : Path) : filepathRel a p = some r ↔ p = a ++ r := by
  induction a generalizing p with
  | nil => simp [filepathRel, eq_comm]
  | cons x xs ih =>
    cases p with
    | nil => simp [filepathRel]
    | cons y ys =>
      by_cases hxy : x = y
      · subst hxy
        simp [filepathRel, ih]
      · have : ¬ y = x := fun e => hxy e.symm
        simp [filepathRel, hxy, this]

/-- The parent of a path that ends below another path. -/
theorem filepathDir_append (a r : Path) (hr : r ≠ []) :
    filepathDir (a ++ r) = a ++ filepathDir r := by
  simp [filepathDir, List.dropLast_append_of_ne_nil _ hr]

/-- The base name of a path that ends below another path. -/
theorem filepathBase_append (a r : Path) (hr : r ≠ []) :
    filepathBase (a ++ r) = filepathBase r := by
  simp [filepathBase, List.getLast?_append_of_ne_nil a hr]

/-- A path that is not empty is its parent followed by its base name. -/
theorem dir_append_base (p : Path) (hp : p ≠ []) : filepathDir p ++ [filepathBase p] = p := by
  have h1 : filepathBase p = p.getLast hp := by
    simp [filepathBase, List.getLast?_eq_getLast _ hp]
  rw [h1, filepathDir]
  exact List.dropLast_append_getLast hp

/-- The text of `joinSep`. -/
theorem joinSep_data (acc : String) (ys : List String) :
    (joinSep acc ys).data = acc.data ++ (ys.map (fun y => '/' :: y.data)).flatten := by
  induction ys generalizing acc with
  | nil => simp [joinSep]
  | cons y ys ih =>
    simp [joinSep, ih, String.data_append]

/-- The text of a path that is not empty ends with its last component, which is the whole
text or follows a separator. -/
theorem pathString_data (p : Path) (x : String) :
    ∃ pre, (pathString (p ++ [x])).data = pre ++ x.data := by
  cases p with
  | nil => exact ⟨[], by simp [pathString, joinSep]⟩
  | cons a as =>
    refine ⟨a.data ++ (as.map (fun y => '/' :: y.data)).flatten ++ ['/'], ?_⟩
    simp [pathString, joinSep_data]

/-- The store file is not an image. -/
theorem not_isImage_db (p : Path) : isImage (pathString (p ++ ["igcopy.db"])) = false := by
  obtain ⟨pre, hpre⟩ := pathString_data p "igcopy.db"
  have hrev : (pathString (p ++ ["igcopy.db"])).data.reverse =
      ['b', 'd'] ++ '.' :: (['y', 'p', 'o', 'c', 'g', 'i'] ++ pre.reverse) := by
    rw [hpre]
    simp
  have hext : filepathExt (pathString (p ++ ["igcopy.db"])) = ".db" := by
    unfold filepathExt
    rw [hrev, extAux_dot ['b', 'd'] _ [] (by decide) (by decide)]
    rfl
  unfold isImage
  rw [hext]
  decide

/-- The base name of an image is not the name of the store file. -/
theorem image_base_ne_db (p : Path) (hp : p ≠ []) (hi : isImage (pathString p) = true) :
    filepathBase p ≠ "igcopy.db" := by
  intro hb
  have := dir_append_base p hp
  rw [hb] at this
  rw [← this, not_isImage_db] at hi
  cases hi

/-! ## What a successful call of the callback does -/

/-- The store path of a directory is not a prefix of the directory. -/
theorem db_not_prefix (d : Path) (x : String) : ¬ (d ++ [x] <+: d) := by
  intro h
  have := h.length_le
  simp at this

/-- The successful calls of `processFile`: the destination directory is made, the handle of
its store is fetched, the store is a database, and then either the name is recorded and
the file is skipped, or it is not, and the file is copied and registered. -/
theorem processFile_ok (outputDir path relPath : Path) (s s1 : St) (hc : CacheOk s)
    (h : processFile outputDir path relPath s = (s1, none)) :
    ∃ s2 db names,
      db.path = filepathJoin (filepathDir (filepathJoin outputDir relPath)) ["igcopy.db"] ∧
      s2.world.stdout = s.world.stdout ∧ s2.world.copyCalls = s.world.copyCalls ∧
      s2.world.inserts = s.world.inserts ∧ CacheOk s2 ∧ s1.dbs = s2.dbs ∧
      (∀ q, q ≠ filepathJoin (filepathDir (filepathJoin outputDir relPath)) ["igcopy.db"] →
        stat s2.world.fs q =
          if stat s.world.fs q = none ∧ q <+: filepathDir (filepathJoin outputDir relPath)
          then some .dir else stat s.world.fs q) ∧
      stat s2.world.fs db.path = some (.file (.ledger names)) ∧
      (stat s.world.fs db.path = some (.file (.ledger names)) ∨
        ((stat s.world.fs db.path = none ∨ stat s.world.fs db.path = some (.file (.raw []))) ∧
          names = [])) ∧
      ((filepathBase (filepathJoin outputDir relPath) ∈ names ∧
          s1.world =
            println ("[Skipped] " ++ pathString relPath ++ " (already in DB)") s2.world) ∨
        (filepathBase (filepathJoin outputDir relPath) ∉ names ∧
          ∃ w4, copyFile path (filepathJoin outputDir relPath)
              (println ("[Copying] " ++ pathString relPath) s2.world) = (w4, none) ∧
            registerFileInDB db (filepathBase (filepathJoin outputDir relPath)) w4 =
              (s1.world, none))) := by
  unfold processFile at h
  split at h
  · cases h
  · rename_i fs1 hm
    split at h
    · cases h
    · rename_i s2 db hg
      obtain ⟨g1, g2, g3, g4, g5, g6, g7⟩ := getOrOpen_ok _ _ _ _ (by exact hc) hg
      have hq : ∀ q, q ≠ filepathJoin (filepathDir (filepathJoin outputDir relPath))
          ["igcopy.db"] → stat s2.world.fs q =
          if stat s.world.fs q = none ∧ q <+: filepathDir (filepathJoin outputDir relPath)
          then some .dir else stat s.world.fs q := by
        intro q hq
        rcases g7 q with e | ⟨e, -⟩
        · rw [e]
          exact stat_osMkdirAll _ _ _ q hm
        · exact absurd e hq
      have hdb0 : stat fs1 db.path = stat s.world.fs db.path := by
        rw [stat_osMkdirAll _ _ _ db.path hm, g1]
        have := db_not_prefix (filepathDir (filepathJoin outputDir relPath)) "igcopy.db"
        simp only [filepathJoin] at this ⊢
        simp [this]
      split at h
      · cases h
      · rename_i he
        cases h
        obtain ⟨names, hn1, hn2⟩ := fileExistsInDB_ok _ _ _ _ he
        refine ⟨s2, db, names, g1, g4, g5, g6, g2, rfl, hq, hn1, ?_, Or.inl ⟨hn2.1 rfl, rfl⟩⟩
        rcases g7 db.path with e | ⟨-, e1, e2⟩
        · left
          rw [← hdb0, ← hn1]
          exact e.symm
        · right
          rw [← hdb0]
          refine ⟨e1, ?_⟩
          rw [hn1] at e2
          simpa using e2
      · rename_i he
        obtain ⟨names, hn1, hn2⟩ := fileExistsInDB_ok _ _ _ _ he
        have hnot : filepathBase (filepathJoin outputDir relPath) ∉ names := by
          intro hm
          have := hn2.2 hm
          cases this
        have hold : stat s.world.fs db.path = some (.file (.ledger names)) ∨
            ((stat s.world.fs db.path = none ∨
              stat s.world.fs db.path = some (.file (.raw []))) ∧ names = []) := by
          rcases g7 db.path with e | ⟨-, e1, e2⟩
          · left
            rw [← hdb0, ← hn1]
            exact e.symm
          · right
            rw [← hdb0]
            refine ⟨e1, ?_⟩
            rw [hn1] at e2
            simpa using e2
        unfold copyAndRegister at h
        split at h
        · cases h
        · rename_i w4 hcp
          split at h
          · cases h
          · rename_i w5 hrg
            cases h
            exact ⟨s2, db, names, g1, g4, g5, g6, g2, rfl, hq, hn1, hold,
              Or.inr ⟨hnot, w4, hcp, hrg⟩⟩

/-- The copy and the registration, when both succeed and the destination is not the store
file: the source was a regular file, the destination holds its content, the name is the
last one of the store, and the records of the world grow by the notice, the call of
`copyFile` and the call of `registerFileInDB`. -/
theorem copy_branch (path dest : Path) (line name : String) (db : Handle) (w2 w4 w5 : World)
    (names : List String) (hne : dest ≠ db.path)
    (hl : stat w2.fs db.path = some (.file (.ledger names)))
    (hcp : copyFile path dest (println line w2) = (w4, none))
    (hrg : registerFileInDB db name w4 = (w5, none)) :
    name ∉ names ∧
    (∃ c, stat w2.fs path = some (.file c) ∧
      ∀ q, stat w5.fs q =
        if q = db.path then some (.file (.ledger (names ++ [name])))
        else if q = dest then some (.file (if path = dest then .raw [] else c))
        else stat w2.fs q) ∧
    w5.stdout = w2.stdout ++ [line] ∧ w5.copyCalls = w2.copyCalls ++ [(path, dest)] ∧
    w5.inserts = w2.inserts ++ [⟨db.path, name, false⟩] ∧
    w5.opened = w2.opened ∧ w5.closed = w2.closed := by
  obtain ⟨c, hc1, hc2⟩ := copyFile_ok _ _ _ _ hcp
  have hc3 := copyFile_logs _ _ _ _ _ hcp
  have hfr : ∀ q, q ≠ dest → stat w4.fs q = stat w2.fs q := fun q hq =>
    copyFile_frame path dest (println line w2) w4 none q hcp hq
  obtain ⟨n4, hr1, hr2, hr3⟩ := registerFileInDB_ok _ _ _ _ hrg
  have hr4 := registerFileInDB_logs _ _ _ _ _ hrg
  have hdb4 : stat w4.fs db.path = some (.file (.ledger names)) := by
    rw [hfr db.path (Ne.symm hne)]
    exact hl
  rw [hdb4] at hr1
  simp only [Option.some.injEq, Kind.file.injEq, Content.ledger.injEq] at hr1
  subst hr1
  refine ⟨hr2, ⟨c, hc1, fun q => ?_⟩, ?_, ?_, ?_, ?_, ?_⟩
  · rw [hr3 q]
    by_cases hq1 : q = db.path
    · simp [hq1]
    · simp only [hq1, if_false]
      by_cases hq2 : q = dest
      · subst hq2
        simp only [if_true]
        exact hc2
      · simp only [hq2, if_false]
        exact hfr q hq2
  · rw [hr4.1, hc3.1]
    rfl
  · rw [hr4.2.1, hc3.2.1]
    rfl
  · obtain ⟨b, hb1, hb2, hb3⟩ := hr4.2.2.2.2.1
    have hb : b = false := by
      cases b with
      | false => rfl
      | true => exact absurd (hb2 rfl) (by simp)
    rw [hb1, hb, hc3.2.2.1]
    rfl
  · rw [hr4.2.2.1, hc3.2.2.2.1]
    rfl
  · rw [hr4.2.2.2.1, hc3.2.2.2.2]
    rfl

/-! ## The file system after a successful call -/

/-- The successful calls of the callback either change nothing or are calls of
`processFile` on an image file. -/
theorem visit_ok_cases (inputDir outputDir path : Path) (d : Option DirEntry)
    (err : Option Cause) (s s1 : St) (h : visit inputDir outputDir path d err s = (s1, none)) :
    s1 = s ∨ ∃ relPath, isImage (pathString path) = true ∧
      filepathRel inputDir path = some relPath ∧
      processFile outputDir path relPath s = (s1, none) := by
  unfold visit at h
  split at h
  · cases h
  · split at h
    · cases h
    · split at h
      · cases h; exact Or.inl rfl
      · split at h
        · cases h; exact Or.inl rfl
        · rename_i hi
          split at h
          · cases h
          · rename_i relPath hr
            exact Or.inr ⟨relPath, by simpa using hi, hr, h⟩

/-- An image file is not the store file of a directory. -/
theorem image_ne_db (path x : Path) (hi : isImage (pathString path) = true) :
    path ≠ filepathJoin x ["igcopy.db"] := by
  intro e
  rw [e, filepathJoin, not_isImage_db] at hi
  cases hi

/-- The file system after a successful call of `processFile` on an image file.  Either the
name is recorded and nothing changes, or it is not recorded, the source is a regular file
and (when the destination is not the store file) the missing directories of the destination
directory are made, the store holds one more name and the destination holds the content of
the source; nothing else changes. -/
theorem processFile_fs (outputDir path relPath : Path) (s s1 : St) (hc : CacheOk s)
    (hi : isImage (pathString path) = true)
    (h : processFile outputDir path relPath s = (s1, none)) :
    CacheOk s1 ∧
    ∃ names,
      (stat s.world.fs (dbPath outputDir relPath) = some (.file (.ledger names)) ∨
        ((stat s.world.fs (dbPath outputDir relPath) = none ∨
            stat s.world.fs (dbPath outputDir relPath) = some (.file (.raw []))) ∧
          names = [])) ∧
      ((fileName outputDir relPath ∈ names ∧ s1.world.fs = s.world.fs ∧
          s1.world.copyCalls = s.world.copyCalls ∧ s1.world.inserts = s.world.inserts ∧
          s1.world.stdout = s.world.stdout ++
            ["[Skipped] " ++ pathString relPath ++ " (already in DB)"]) ∨
        (fileName outputDir relPath ∉ names ∧
          ∃ c, stat s.world.fs path = some (.file c) ∧
            (destPath outputDir relPath ≠ dbPath outputDir relPath →
              ∀ q, stat s1.world.fs q =
                if q = dbPath outputDir relPath then
                  some (.file (.ledger (names ++ [fileName outputDir relPath])))
                else if q = destPath outputDir relPath then
                  some (.file (if path = destPath outputDir relPath then .raw [] else c))
                else if stat s.world.fs q = none ∧ q <+: destDir outputDir relPath then
                  some .dir
                else stat s.world.fs q))) := by
  refine ⟨processFile_cacheOk _ _ _ _ _ _ hc h, ?_⟩
  have hrec := processFile_recorded outputDir path relPath s
  obtain ⟨s2, db, names, g1, g2, g3, g4, g5, g6, g7, g8, g9, g10⟩ :=
    processFile_ok outputDir path relPath s s1 hc h
  rw [g1] at g8 g9
  refine ⟨names, g9, ?_⟩
  rcases g10 with ⟨hmem, hskip⟩ | ⟨hnot, w4, hcp, hrg⟩
  · left
    have hl : stat s.world.fs (dbPath outputDir relPath) = some (.file (.ledger names)) := by
      rcases g9 with h1 | ⟨-, h1⟩
      · exact h1
      · subst h1
        simp at hmem
    obtain ⟨s3, k1, k2, k3, k4, k5, -⟩ := hrec names hc hl hmem
    rw [h] at k1
    simp only [Prod.mk.injEq, and_true] at k1
    subst k1
    exact ⟨hmem, k5, k3, k4, k2⟩
  · right
    refine ⟨hnot, ?_⟩
    obtain ⟨c, hc1, -⟩ := copyFile_ok _ _ _ _ hcp
    have hc1x : stat s2.world.fs path = some (.file c) := hc1
    have hc2 := hc1x
    have hpne : path ≠ filepathJoin (filepathDir (filepathJoin outputDir relPath))
        ["igcopy.db"] := image_ne_db path _ hi
    rw [g7 path hpne] at hc2
    have hsrc : stat s.world.fs path = some (.file c) := by
      split at hc2
      · cases hc2
      · exact hc2
    refine ⟨c, hsrc, fun hne q => ?_⟩
    obtain ⟨-, ⟨c1, hc3, hfs⟩, -⟩ :=
      copy_branch path (filepathJoin outputDir relPath) _ _ db s2.world w4 s1.world names
        (by rw [g1]; exact hne) (by rw [g1]; exact g8) hcp hrg
    have hcc : c1 = c := by
      rw [hc1x] at hc3
      simpa using hc3.symm
    rw [hfs q, g1]
    by_cases hq1 : q = dbPath outputDir relPath
    · simp [hq1]
    · rw [if_neg hq1, if_neg hq1]
      by_cases hq2 : q = destPath outputDir relPath
      · simp [hq2, hcc]
      · rw [if_neg hq2, if_neg hq2]
        exact g7 q hq1

/-! ## Registrations never meet a recorded name -/

/-- An invariant of the successful calls holds in every state that a run can be in. -/
theorem reach_inv (fn : WalkFn) (I : St → Prop)
    (hI : ∀ p d e s s1, I s → fn p d e s = (s1, none) → I s1) (s s1 : St)
    (hr : Reach fn s s1) (hs : I s) : I s1 := by
  induction hr with
  | refl => exact hs
  | step path d err _ hstep ih => exact hI _ _ _ _ _ ih hstep

/-- A property that the successful calls keep is kept by a run. -/
theorem reach_post (fn : WalkFn) (I : St → Prop) (P : St → Prop)
    (hI : ∀ p d e s s1, I s → fn p d e s = (s1, none) → I s1)
    (hP : ∀ p d e s s1, I s → fn p d e s = (s1, none) → P s → P s1) (s s1 : St)
    (hr : Reach fn s s1) (hs : I s) (hp : P s) : P s1 := by
  induction hr with
  | refl => exact hp
  | step path d err hprev hstep ih =>
    exact hP _ _ _ _ _ (reach_inv fn I hI _ _ hprev hs) hstep ih

/-- The loop over the entries of a directory reaches every regular file below the entries,
when the walk of an entry does. -/
theorem walkEntries_covers (inputDir outputDir : Path) (I : St → Prop)
    (Post : Path → St → Prop)
    (hI : ∀ p d e s s1, I s → visit inputDir outputDir p d e s = (s1, none) → I s1)
    (hpres : ∀ p d e s s1 q, I s → visit inputDir outputDir p d e s = (s1, none) →
      Post q s → Post q s1)
    (recur : Path → DirEntry → St → Option (St × Option Error))
    (htr : ∀ p d s s1 r, recur p d s = some (s1, r) →
      Trace (visit inputDir outputDir) s s1 r)
    (hrec : ∀ p d s s1, recur p d s = some (s1, none) → I s →
      (∃ k, stat s.world.fs p = some k ∧ (d.isDir = true ↔ k = .dir)) →
      ∀ q c, stat s.world.fs (p ++ q) = some (.file c) → Post (p ++ q) s1)
    (path : Path) (ds : List DirEntry) (s s1 : St)
    (h : walkEntries recur path ds s = some (s1, none)) (hs : I s)
    (hds : ∀ d1, d1 ∈ ds → ∃ k, stat s.world.fs (path ++ [d1.name]) = some k ∧
      (d1.isDir = true ↔ k = .dir)) :
    ∀ d1, d1 ∈ ds → ∀ q c, stat s.world.fs (path ++ [d1.name] ++ q) = some (.file c) →
      Post (path ++ [d1.name] ++ q) s1 := by
  induction ds generalizing s with
  | nil =>
    intro d1 hd1
    simp at hd1
  | cons d ds ih =>
    unfold walkEntries at h
    split at h
    · cases h
    · cases h
    · rename_i sb hr
      have hreach : Reach (visit inputDir outputDir) s sb := htr _ _ _ _ _ hr
      have hIb : I sb := reach_inv _ I hI _ _ hreach hs
      have hgrow : Grow s.world.fs sb.world.fs := grow_reach _ _ _ _ hreach
      have hreach2 : Reach (visit inputDir outputDir) sb s1 :=
        walkEntries_trace _ recur htr path ds sb s1 none h
      intro d1 hd1 q c hq
      rcases List.mem_cons.1 hd1 with e | hmem
      · subst e
        have hp := hrec _ _ _ _ hr hs (hds d1 (by simp)) q c hq
        exact reach_post _ I (Post (path ++ [d1.name] ++ q)) hI
          (fun p d e s s1 hIs hst hP => hpres p d e s s1 _ hIs hst hP) sb s1 hreach2 hIb hp
      · obtain ⟨c1, hc1⟩ := (hgrow _).2 c hq
        refine ih sb h hIb (fun d2 hd2 => ?_) d1 hmem q c1 hc1
        obtain ⟨k, hk1, hk2⟩ := hds d2 (by simp [hd2])
        obtain ⟨k1, hk3, hk4⟩ := grow_some hgrow _ k hk1
        exact ⟨k1, hk3, by rw [hk2, hk4]⟩

/-- A walk that returns no error reaches every regular file below its root: a property
that a successful call of the callback on a regular file establishes for that file, and
that later successful calls keep, holds at the end for every regular file that was below
the root when the walk began. -/
theorem walkDir_covers (inputDir outputDir : Path) (I : St → Prop) (Post : Path → St → Prop)
    (hI : ∀ p d e s s1, I s → visit inputDir outputDir p d e s = (s1, none) → I s1)
    (hest : ∀ p d s s1 c, I s → visit inputDir outputDir p (some d) none s = (s1, none) →
      d.isDir = false → stat s.world.fs p = some (.file c) → Post p s1)
    (hpres : ∀ p d e s s1 q, I s → visit inputDir outputDir p d e s = (s1, none) →
      Post q s → Post q s1)
    (fuel : Nat) (p : Path) (d : DirEntry) (s s1 : St)
    (h : walkDir (visit inputDir outputDir) fuel p d s = some (s1, none)) (hs : I s)
    (hd : ∃ k, stat s.world.fs p = some k ∧ (d.isDir = true ↔ k = .dir)) :
    ∀ q c, stat s.world.fs (p ++ q) = some (.file c) → Post (p ++ q) s1 := by
  induction fuel generalizing p d s s1 with
  | zero => simp [walkDir] at h
  | succ fuel ih =>
    rw [walkDir] at h
    cases hf : visit inputDir outputDir p (some d) none s with
    | mk sa ra =>
      rw [hf] at h
      cases ra with
      | some e => cases h
      | none =>
        simp only at h
        have hIa : I sa := hI _ _ _ _ _ hs hf
        have hgrow : Grow s.world.fs sa.world.fs := grow_visit _ _ _ _ _ _ _ _ hf
        obtain ⟨k, hk1, hk2⟩ := hd
        intro q c hq
        by_cases hdir : d.isDir = true
        · have hkd : stat s.world.fs p = some .dir := by rw [hk1, hk2.1 hdir]
          have hkda : stat sa.world.fs p = some .dir := (hgrow p).1 hkd
          obtain ⟨ds, hds⟩ := osReadDir_of_dir _ _ hkda
          simp only [hdir, Bool.not_true, Bool.false_eq_true, if_false, hds] at h
          cases q with
          | nil =>
            rw [List.append_nil, hkd] at hq
            cases hq
          | cons x q1 =>
            obtain ⟨c1, hc1⟩ := (hgrow _).2 c hq
            have hx : stat sa.world.fs (p ++ [x]) ≠ none := by
              intro e
              have := stat_below_none _ (p ++ [x]) q1 e
              rw [List.append_assoc, List.singleton_append, hc1] at this
              cases this
            obtain ⟨d1, hd1, hname⟩ := osReadDir_complete _ _ _ x hds hx
            have := walkEntries_covers inputDir outputDir I Post hI hpres
              (walkDir (visit inputDir outputDir) fuel)
              (fun p d s s1 r hh => walkDir_trace _ fuel p d s s1 r hh)
              (fun p d s s1 hh hIs hdd => ih p d s s1 hh hIs hdd)
              p ds sa s1 h hIa (fun d2 hd2 => osReadDir_mem _ _ _ d2 hds hd2) d1 hd1 q1 c1
              (by rw [hname, List.append_assoc, List.singleton_append]; exact hc1)
            rw [hname, List.append_assoc, List.singleton_append] at this
            exact this
        · have hdf : d.isDir = false := by simpa using hdir
          simp only [hdf, Bool.not_false, if_true, Option.some.injEq, Prod.mk.injEq,
            and_true] at h
          subst h
          cases k with
          | dir => exact absurd (hk2.2 rfl) hdir
          | file c0 =>
            cases q with
            | nil =>
              rw [List.append_nil]
              exact hest _ _ _ _ c0 hs hf hdf hk1
            | cons x q1 =>
              rw [stat_below_file _ p c0 x q1 hk1] at hq
              cases hq

/-! ## Runs with separate input and output trees -/

/-- When neither of two paths lies under the other, nothing under the first is a prefix of
something under the second. -/
theorem disjoint_under (a b : Path) (h1 : ¬ a <+: b) (h2 : ¬ b <+: a) (q x : Path) :
    ¬ (a ++ q <+: b ++ x) := by
  intro h
  have ha : a <+: b ++ x := List.IsPrefix.trans (List.prefix_append a q) h
  rcases List.prefix_or_prefix_of_prefix ha (List.prefix_append b x) with h3 | h3
  · exact h1 h3
  · exact h2 h3

/-- When neither of two paths lies under the other, nothing is under both. -/
theorem disjoint_ne (a b : Path) (h1 : ¬ a <+: b) (h2 : ¬ b <+: a) (q x : Path) :
    a ++ q ≠ b ++ x := by
  intro e
  apply disjoint_under a b h1 h2 q x
  rw [e]

/-- The destination directory of a file strictly below the root is under the output root. -/
theorem destDir_eq (outputDir relPath : Path) (hne : relPath ≠ []) :
    destDir outputDir relPath = outputDir ++ filepathDir relPath :=
  filepathDir_append _ _ hne

/-- The store path of a file strictly below the root is under the output root. -/
theorem dbPath_eq (outputDir relPath : Path) (hne : relPath ≠ []) :
    dbPath outputDir relPath = outputDir ++ (filepathDir relPath ++ ["igcopy.db"]) := by
  show filepathJoin (destDir outputDir relPath) ["igcopy.db"] = _
  rw [destDir_eq _ _ hne, filepathJoin, List.append_assoc]

/-- The destination of an image strictly below the root is not a store file. -/
theorem destPath_ne_db (inputDir outputDir relPath x : Path) (hne : relPath ≠ [])
    (hi : isImage (pathString (inputDir ++ relPath)) = true) :
    destPath outputDir relPath ≠ filepathJoin x ["igcopy.db"] := by
  intro e
  have hp : inputDir ++ relPath ≠ [] := by simp [hne]
  apply image_base_ne_db _ hp hi
  have e2 : filepathBase (destPath outputDir relPath) = "igcopy.db" := by
    rw [e, filepathJoin, filepathBase_append _ _ (by simp)]
    rfl
  rw [← e2]
  show filepathBase (inputDir ++ relPath) = filepathBase (outputDir ++ relPath)
  rw [filepathBase_append _ _ hne, filepathBase_append _ _ hne]

/-- A successful call of the callback when the input root is a directory: either the file
system is left as it is, or an image strictly below the input root is copied, and then the
file system changes at three places only: missing directories of the destination directory
are made, the store of that directory holds one more name, and the destination holds the
content of the source (nothing, when the source is the destination). -/
theorem step_dir (inputDir outputDir path : Path) (d : Option DirEntry)
    (err : Option Cause) (s s1 : St) (hc : CacheOk s)
    (hin : stat s.world.fs inputDir = some .dir)
    (hv : visit inputDir outputDir path d err s = (s1, none)) :
    (CacheOk s1 ∧ stat s1.world.fs inputDir = some .dir) ∧
    (s1.world.fs = s.world.fs ∨
      ∃ relPath names c, relPath ≠ [] ∧ path = inputDir ++ relPath ∧
        isImage (pathString path) = true ∧ stat s.world.fs path = some (.file c) ∧
        fileName outputDir relPath ∉ names ∧
        (stat s.world.fs (dbPath outputDir relPath) = some (.file (.ledger names)) ∨
          ((stat s.world.fs (dbPath outputDir relPath) = none ∨
              stat s.world.fs (dbPath outputDir relPath) = some (.file (.raw []))) ∧
            names = [])) ∧
        ∀ q, stat s1.world.fs q =
          if q = dbPath outputDir relPath then
            some (.file (.ledger (names ++ [fileName outputDir relPath])))
          else if q = destPath outputDir relPath then
            some (.file (if path = destPath outputDir relPath then .raw [] else c))
          else if stat s.world.fs q = none ∧ q <+: destDir outputDir relPath then some .dir
          else stat s.world.fs q) := by
  have hin1 : stat s1.world.fs inputDir = some .dir :=
    (grow_visit _ _ _ _ _ _ _ _ hv inputDir).1 hin
  rcases visit_ok_cases _ _ _ _ _ _ _ hv with e | ⟨relPath, hi, hr, hp⟩
  · subst e
    exact ⟨⟨hc, hin⟩, Or.inl rfl⟩
  · obtain ⟨hc1, names, hn, hcase⟩ := processFile_fs outputDir path relPath s s1 hc hi hp
    refine ⟨⟨hc1, hin1⟩, ?_⟩
    rcases hcase with ⟨-, hfs, -⟩ | ⟨hnot, c, hsrc, hfs⟩
    · exact Or.inl hfs
    · right
      have hpath : path = inputDir ++ relPath := (filepathRel_eq_some _ _ _).1 hr
      have hne : relPath ≠ [] := by
        intro e
        subst e
        rw [hpath, List.append_nil, hin] at hsrc
        cases hsrc
      have hdd : destPath outputDir relPath ≠ dbPath outputDir relPath :=
        destPath_ne_db inputDir outputDir relPath _ hne (by rw [← hpath]; exact hi)
      exact ⟨relPath, names, c, hne, hpath, hi, hsrc, hnot, hn, hfs hdd⟩

/-- A successful call of the callback when the input root is a directory and neither root
lies under the other: as `step_dir`, and the source is not the destination. -/
theorem step_disjoint (inputDir outputDir : Path) (hd1 : ¬ inputDir <+: outputDir)
    (hd2 : ¬ outputDir <+: inputDir) (path : Path) (d : Option DirEntry)
    (err : Option Cause) (s s1 : St) (hc : CacheOk s)
    (hin : stat s.world.fs inputDir = some .dir)
    (hv : visit inputDir outputDir path d err s = (s1, none)) :
    CacheOk s1 ∧
    (s1.world.fs = s.world.fs ∨
      ∃ relPath names c, relPath ≠ [] ∧ path = inputDir ++ relPath ∧
        isImage (pathString path) = true ∧ stat s.world.fs path = some (.file c) ∧
        fileName outputDir relPath ∉ names ∧
        (stat s.world.fs (dbPath outputDir relPath) = some (.file (.ledger names)) ∨
          ((stat s.world.fs (dbPath outputDir relPath) = none ∨
              stat s.world.fs (dbPath outputDir relPath) = some (.file (.raw []))) ∧
            names = [])) ∧
        ∀ q, stat s1.world.fs q =
          if q = dbPath outputDir relPath then
            some (.file (.ledger (names ++ [fileName outputDir relPath])))
          else if q = destPath outputDir relPath then some (.file c)
          else if stat s.world.fs q = none ∧ q <+: destDir outputDir relPath then some .dir
          else stat s.world.fs q) := by
  obtain ⟨⟨hc1, -⟩, hfs | ⟨relPath, names, c, hne, hpath, hi, hsrc, hnot, hn, hF⟩⟩ :=
    step_dir inputDir outputDir path d err s s1 hc hin hv
  · exact ⟨hc1, Or.inl hfs⟩
  · refine ⟨hc1, Or.inr ⟨relPath, names, c, hne, hpath, hi, hsrc, hnot, hn, fun q => ?_⟩⟩
    have hpd : path ≠ destPath outputDir relPath := by
      rw [hpath]
      exact disjoint_ne _ _ hd1 hd2 _ _
    rw [hF q]
    simp only [hpd, if_false]

/-- The destination is its directory followed by its name. -/
theorem destPath_split (outputDir relPath : Path) (hne : relPath ≠ []) :
    destPath outputDir relPath = destDir outputDir relPath ++ [fileName outputDir relPath] := by
  have : destPath outputDir relPath ≠ [] := by simp [destPath, filepathJoin, hne]
  exact (dir_append_base _ this).symm

/-- Two files strictly below the root with the same store and the same name are the same. -/
theorem rel_eq_of_db_eq (outputDir r1 r2 : Path) (h1 : r1 ≠ []) (h2 : r2 ≠ [])
    (hdb : dbPath outputDir r1 = dbPath outputDir r2)
    (hname : fileName outputDir r1 = fileName outputDir r2) : r1 = r2 := by
  have hdir : destDir outputDir r1 = destDir outputDir r2 := by
    have : destDir outputDir r1 ++ ["igcopy.db"] = destDir outputDir r2 ++ ["igcopy.db"] := hdb
    exact List.append_cancel_right this
  have hdest : destPath outputDir r1 = destPath outputDir r2 := by
    rw [destPath_split _ _ h1, destPath_split _ _ h2, hdir, hname]
  exact List.append_cancel_left hdest

/-- A successful call of the callback leaves the tree under the input root as it is, when
the input root is a directory and neither root lies under the other. -/
theorem step_inputKept (inputDir outputDir : Path) (hd1 : ¬ inputDir <+: outputDir)
    (hd2 : ¬ outputDir <+: inputDir) (w : World) (hin : stat w.fs inputDir = some .dir)
    (path : Path) (d : Option DirEntry) (err : Option Cause) (s s1 : St)
    (hI : CacheOk s ∧ InputKept inputDir w s)
    (hv : visit inputDir outputDir path d err s = (s1, none)) :
    CacheOk s1 ∧ InputKept inputDir w s1 := by
  obtain ⟨hc, hk⟩ := hI
  have hin2 : stat s.world.fs inputDir = some .dir := by
    have := hk []
    simp only [List.append_nil] at this
    rw [this]
    exact hin
  obtain ⟨hc1, hfs | ⟨relPath, names, c, hne, -, -, -, -, -, hF⟩⟩ :=
    step_disjoint inputDir outputDir hd1 hd2 path d err s s1 hc hin2 hv
  · refine ⟨hc1, fun q => ?_⟩
    rw [hfs]
    exact hk q
  · refine ⟨hc1, fun q => ?_⟩
    rw [hF (inputDir ++ q)]
    have h1 : inputDir ++ q ≠ dbPath outputDir relPath := by
      rw [dbPath_eq _ _ hne]
      exact disjoint_ne _ _ hd1 hd2 _ _
    have h2 : inputDir ++ q ≠ destPath outputDir relPath := disjoint_ne _ _ hd1 hd2 _ _
    have h3 : ¬ (stat s.world.fs (inputDir ++ q) = none ∧
        inputDir ++ q <+: destDir outputDir relPath) := by
      rintro ⟨-, h⟩
      rw [destDir_eq _ _ hne] at h
      exact disjoint_under _ _ hd1 hd2 _ _ h
    rw [if_neg h1, if_neg h2, if_neg h3]
    exact hk q

/-- A successful call of the callback keeps the names that the stores record, when the
input root is a directory. -/
theorem step_recorded (inputDir outputDir path : Path) (d : Option DirEntry)
    (err : Option Cause) (s s1 : St) (p : Path)
    (hI : CacheOk s ∧ stat s.world.fs inputDir = some .dir)
    (hv : visit inputDir outputDir path d err s = (s1, none))
    (hp : Recorded inputDir outputDir p s) : Recorded inputDir outputDir p s1 := by
  obtain ⟨hc, hin2⟩ := hI
  obtain ⟨-, hfs | ⟨relPath, names, c, hne, hpath, hi, -, -, hn, hF⟩⟩ :=
    step_dir inputDir outputDir path d err s s1 hc hin2 hv
  · intro rel hr himg
    rw [hfs]
    exact hp rel hr himg
  · intro rel hr himg
    obtain ⟨n1, hn1, hm1⟩ := hp rel hr himg
    by_cases hq : dbPath outputDir rel = dbPath outputDir relPath
    · refine ⟨names ++ [fileName outputDir relPath], ?_, ?_⟩
      · rw [hF, if_pos hq]
      · rw [hq] at hn1
        rcases hn with h1 | ⟨h1, -⟩
        · rw [hn1] at h1
          simp only [Option.some.injEq, Kind.file.injEq, Content.ledger.injEq] at h1
          subst h1
          simp [hm1]
        · rcases h1 with h1 | h1
          · rw [hn1] at h1
            cases h1
          · rw [hn1] at h1
            cases h1
    · refine ⟨n1, ?_, hm1⟩
      rw [hF, if_neg hq]
      have h2 : dbPath outputDir rel ≠ destPath outputDir relPath := by
        intro e
        exact destPath_ne_db inputDir outputDir relPath _ hne (by rw [← hpath]; exact hi)
          e.symm
      have h3 : ¬ (stat s.world.fs (dbPath outputDir rel) = none ∧
          dbPath outputDir rel <+: destDir outputDir relPath) := by
        rintro ⟨h, -⟩
        rw [hn1] at h
        cases h
      rw [if_neg h2, if_neg h3]
      exact hn1

/-- A successful call of the callback on a regular file records the name of the file, when
it is an image. -/
theorem step_records (inputDir outputDir path : Path) (d : DirEntry) (s s1 : St)
    (hc : CacheOk s) (hv : visit inputDir outputDir path (some d) none s = (s1, none))
    (hd : d.isDir = false) : Recorded inputDir outputDir path s1 := by
  intro rel hr himg
  rw [visit_eligible inputDir outputDir path rel d s hd himg hr] at hv
  obtain ⟨s2, db, names, g1, -, -, -, -, -, -, g8, g9, g10⟩ :=
    processFile_ok outputDir path rel s s1 hc hv
  rcases g10 with ⟨hmem, hskip⟩ | ⟨-, w4, -, hrg⟩
  · refine ⟨names, ?_, hmem⟩
    rw [hskip]
    rw [g1] at g8
    exact g8
  · obtain ⟨n4, -, -, hr3⟩ := registerFileInDB_ok _ _ _ _ hrg
    refine ⟨n4 ++ [fileName outputDir rel], ?_, by simp⟩
    rw [hr3, g1]
    simp

/-- A successful call of the callback keeps the link between the names that the stores
record and the content at the mirrored paths. -/
theorem step_mirrored (inputDir outputDir : Path) (hd1 : ¬ inputDir <+: outputDir)
    (hd2 : ¬ outputDir <+: inputDir) (w : World) (hin : stat w.fs inputDir = some .dir)
    (path : Path) (d : Option DirEntry) (err : Option Cause) (s s1 : St)
    (hI : CacheOk s ∧ InputKept inputDir w s)
    (hv : visit inputDir outputDir path d err s = (s1, none))
    (hm : Mirrored inputDir outputDir w s) : Mirrored inputDir outputDir w s1 := by
  obtain ⟨hc, hk⟩ := hI
  have hin2 : stat s.world.fs inputDir = some .dir := by
    have := hk []
    simp only [List.append_nil] at this
    rw [this]
    exact hin
  obtain ⟨-, hfs | ⟨relPath, names, c, hne, hpath, hi, hsrc, hnot, hn, hF⟩⟩ :=
    step_disjoint inputDir outputDir hd1 hd2 path d err s s1 hc hin2 hv
  · intro rel c1 n1 hr1 hf1 hi1 hl1 hm1
    rw [hfs] at hl1 ⊢
    exact hm rel c1 n1 hr1 hf1 hi1 hl1 hm1
  · intro rel c1 n1 hr1 hf1 hi1 hl1 hm1
    have hdestdb : ∀ x, destPath outputDir rel ≠ filepathJoin x ["igcopy.db"] :=
      fun x => destPath_ne_db inputDir outputDir rel x hr1 hi1
    have hdbdest : dbPath outputDir rel ≠ destPath outputDir relPath := fun e =>
      destPath_ne_db inputDir outputDir relPath _ hne (by rw [← hpath]; exact hi) e.symm
    -- the content at the mirrored path of `rel` is kept by the call, unless it is the
    -- destination of the call
    have hkeep : rel ≠ relPath → stat s.world.fs (destPath outputDir rel) = some (.file c1) →
        stat s1.world.fs (destPath outputDir rel) = some (.file c1) := by
      intro hrr hd
      have h1 : destPath outputDir rel ≠ dbPath outputDir relPath := hdestdb _
      have h2 : destPath outputDir rel ≠ destPath outputDir relPath := fun e =>
        hrr (List.append_cancel_left e)
      have h3 : ¬ (stat s.world.fs (destPath outputDir rel) = none ∧
          destPath outputDir rel <+: destDir outputDir relPath) := by
        rintro ⟨h, -⟩
        rw [hd] at h
        cases h
      rw [hF, if_neg h1, if_neg h2, if_neg h3]
      exact hd
    by_cases hrr : rel = relPath
    · subst hrr
      right
      have hcc : c = c1 := by
        rw [hpath, hk, hf1] at hsrc
        simpa using hsrc.symm
      rw [hF, if_neg (hdestdb _), if_pos rfl, hcc]
    · by_cases hq : dbPath outputDir rel = dbPath outputDir relPath
      · -- same store: the name of `rel` was in the store before the call
        have hname : fileName outputDir rel ≠ fileName outputDir relPath := fun e =>
          hrr (rel_eq_of_db_eq outputDir rel relPath hr1 hne hq e)
        rw [hF, if_pos hq] at hl1
        simp only [Option.some.injEq, Kind.file.injEq, Content.ledger.injEq] at hl1
        subst hl1
        have hm2 : fileName outputDir rel ∈ names := by
          simp only [List.mem_append, List.mem_singleton] at hm1
          rcases hm1 with h | h
          · exact h
          · exact absurd h hname
        have hold : stat s.world.fs (dbPath outputDir rel) = some (.file (.ledger names)) := by
          rw [hq]
          rcases hn with h | ⟨-, h⟩
          · exact h
          · subst h
            simp at hm2
        rcases hm rel c1 names hr1 hf1 hi1 hold hm2 with h | h
        · exact Or.inl h
        · exact Or.inr (hkeep hrr h)
      · have h3 : ¬ (stat s.world.fs (dbPath outputDir rel) = none ∧
            dbPath outputDir rel <+: destDir outputDir relPath) := by
          rintro ⟨h, h4⟩
          rw [hF, if_neg hq, if_neg hdbdest, if_pos ⟨h, h4⟩] at hl1
          cases hl1
        rw [hF, if_neg hq, if_neg hdbdest, if_neg h3] at hl1
        rcases hm rel c1 n1 hr1 hf1 hi1 hl1 hm1 with h | h
        · exact Or.inl h
        · exact Or.inr (hkeep hrr h)

/-! ## Runs in which every image is recorded -/

/-- A successful call of `processFile` on an image at or under the input root, in a state
in which every such image is recorded, prints the skip line and does nothing else. -/
theorem processFile_quiet (inputDir outputDir path relPath : Path) (s s1 : St)
    (hc : CacheOk s) (hall : AllRecorded inputDir outputDir s.world.fs)
    (hi : isImage (pathString path) = true)
    (hr : filepathRel inputDir path = some relPath)
    (h : processFile outputDir path relPath s = (s1, none)) :
    CacheOk s1 ∧ s1.world.fs = s.world.fs ∧ s1.world.copyCalls = s.world.copyCalls ∧
      s1.world.inserts = s.world.inserts ∧
      s1.world.stdout = s.world.stdout ++ [skipLine relPath] := by
  obtain ⟨hc1, names, hn, hcase⟩ := processFile_fs outputDir path relPath s s1 hc hi h
  rcases hcase with ⟨-, h1, h2, h3, h4⟩ | ⟨hnot, c, hsrc, -⟩
  · exact ⟨hc1, h1, h2, h3, h4⟩
  · exfalso
    have hpath : path = inputDir ++ relPath := (filepathRel_eq_some _ _ _).1 hr
    obtain ⟨n1, hn1, hm1⟩ := hall relPath c (by rw [← hpath]; exact hsrc)
      (by rw [← hpath]; exact hi)
    rcases hn with h1 | ⟨h1, -⟩
    · rw [hn1] at h1
      simp only [Option.some.injEq, Kind.file.injEq, Content.ledger.injEq] at h1
      subst h1
      exact hnot hm1
    · rcases h1 with h1 | h1
      · rw [hn1] at h1
        cases h1
      · rw [hn1] at h1
        cases h1

/-- A successful call of the callback in a quiet state, when every image is recorded, leads
to a quiet state. -/
theorem quiet_step (inputDir outputDir : Path) (w : World)
    (hall : AllRecorded inputDir outputDir w.fs) (path : Path) (d : Option DirEntry)
    (err : Option Cause) (s s1 : St) (hq : Quiet w s)
    (hv : visit inputDir outputDir path d err s = (s1, none)) : Quiet w s1 := by
  obtain ⟨hc, hfs, h2, h3, lines, h4, h5⟩ := hq
  rcases visit_ok_cases _ _ _ _ _ _ _ hv with e | ⟨relPath, hi, hr, hp⟩
  · subst e
    exact ⟨hc, hfs, h2, h3, lines, h4, h5⟩
  · obtain ⟨k1, k2, k3, k4, k5⟩ := processFile_quiet inputDir outputDir path relPath s s1 hc
      (by rw [hfs]; exact hall) hi hr hp
    refine ⟨k1, by rw [k2, hfs], by rw [k3, h2], by rw [k4, h3], lines ++ [skipLine relPath],
      by rw [k5, h4, List.append_assoc], ?_⟩
    intro l hl
    simp only [List.mem_append, List.mem_singleton] at hl
    rcases hl with h | h
    · exact h5 l h
    · exact ⟨relPath, h⟩

/-- A run over a tree in which every image is recorded: with enough fuel the walk returns
no error, the state it ends in is quiet, and the skip line of every image has been
printed. -/
theorem quiet_walk (inputDir outputDir : Path) (w : World) (k : Kind)
    (hall : AllRecorded inputDir outputDir w.fs) (hroot : stat w.fs inputDir = some k) :
    ∃ fuel s2, filepathWalkDir (visit inputDir outputDir) fuel inputDir ⟨w, []⟩ =
        some (s2, none) ∧ Quiet w s2 ∧
      ∀ relPath c, stat w.fs (inputDir ++ relPath) = some (.file c) →
        isImage (pathString (inputDir ++ relPath)) = true →
        ∃ lines, s2.world.stdout = w.stdout ++ lines ∧ skipLine relPath ∈ lines := by
  obtain ⟨n, hn⟩ := exists_depth_below w.fs inputDir
  have hq0 : Quiet w ⟨w, []⟩ := ⟨cacheOk_nil w, rfl, rfl, rfl, [], by simp, by simp⟩
  have hstepI : ∀ p d e s s1, Quiet w s → visit inputDir outputDir p d e s = (s1, none) →
      Quiet w s1 := fun p d e s s1 hq hv => quiet_step inputDir outputDir w hall p d e s s1 hq hv
  obtain ⟨s2, h1, h2, -⟩ := walkDir_static (visit inputDir outputDir) w.fs (Quiet w) inputDir
    (fun q d s k1 hI hfs hk1 hd1 => by
      have hex : ∃ s1, visit inputDir outputDir (inputDir ++ q) (some d) none s = (s1, none) := by
        by_cases hdir : d.isDir = true
        · exact ⟨s, visit_skip _ _ _ d s (Or.inl hdir)⟩
        · by_cases himg : isImage (pathString (inputDir ++ q)) = true
          · cases k1 with
            | dir => exact absurd (hd1.2 rfl) hdir
            | file c =>
              obtain ⟨names, hl, hm⟩ := hall q c hk1 himg
              obtain ⟨s1, e1, -⟩ := processFile_recorded outputDir (inputDir ++ q) q s names
                hI.1 (by rw [hfs]; exact hl) hm
              refine ⟨s1, ?_⟩
              rw [visit_eligible inputDir outputDir (inputDir ++ q) q d s (by simpa using hdir)
                himg ((filepathRel_eq_some _ _ _).2 rfl)]
              exact e1
          · exact ⟨s, visit_skip _ _ _ d s (Or.inr (by simpa using himg))⟩
      obtain ⟨s1, hv⟩ := hex
      have := hstepI _ _ _ _ _ hI hv
      exact ⟨s1, hv, this, this.2.1⟩)
    n [] ⟨filepathBase inputDir, decide (k = .dir)⟩ ⟨w, []⟩ k
    (fun r hr => hn r (by simpa using hr)) hq0 rfl (by simpa using hroot) (by simp)
  rw [List.append_nil] at h1
  refine ⟨n, s2, by simp only [filepathWalkDir, hroot, h1], h2, ?_⟩
  intro relPath c hf hi
  have hcov := walkDir_covers inputDir outputDir (Quiet w) (Skipped inputDir w) hstepI
    (fun p d s s1 _ hI hv hd _ => by
      intro rel hr himg
      rw [visit_eligible inputDir outputDir p rel d s hd himg hr] at hv
      obtain ⟨-, -, -, -, k5⟩ := processFile_quiet inputDir outputDir p rel s s1 hI.1
        (by rw [hI.2.1]; exact hall) himg hr hv
      obtain ⟨lines, h4, -⟩ := hI.2.2.2.2
      exact ⟨lines ++ [skipLine rel], by rw [k5, h4, List.append_assoc], by simp⟩)
    (fun p d e s s1 q hI hv hp => by
      intro rel hr himg
      obtain ⟨lines, h4, h5⟩ := hp rel hr himg
      rcases visit_ok_cases _ _ _ _ _ _ _ hv with e1 | ⟨rel1, hi1, hr1, hp1⟩
      · subst e1
        exact ⟨lines, h4, h5⟩
      · obtain ⟨-, -, -, -, k5⟩ := processFile_quiet inputDir outputDir p rel1 s s1 hI.1
          (by rw [hI.2.1]; exact hall) hi1 hr1 hp1
        exact ⟨lines ++ [skipLine rel1], by rw [k5, h4, List.append_assoc],
          by simp [h5]⟩)
    n inputDir _ ⟨w, []⟩ s2 h1 hq0 ⟨k, hroot, by simp⟩ relPath c hf
  exact hcov relPath ((filepathRel_eq_some _ _ _).2 rfl) hi

/-- After a run that returns no error the input root exists, and every image that was at
or under it when the run began has its name recorded in the store of its destination
directory. -/
theorem run_records (inputDir outputDir : Path) (fuel : Nat) (w w1 : World)
    (h : run inputDir outputDir fuel w = some (w1, none)) :
    (∃ k, stat w.fs inputDir = some k) ∧
    ∀ relPath c, stat w.fs (inputDir ++ relPath) = some (.file c) →
      isImage (pathString (inputDir ++ relPath)) = true →
      ∃ names, stat w1.fs (dbPath outputDir relPath) = some (.file (.ledger names)) ∧
        fileName outputDir relPath ∈ names := by
  obtain ⟨s1, hw, rfl⟩ := run_eq inputDir outputDir fuel w w1 none h
  rw [closeAll_eq]
  simp only
  unfold filepathWalkDir at hw
  cases hroot : stat w.fs inputDir with
  | none =>
    rw [show stat (St.mk w []).world.fs inputDir = none from hroot] at hw
    simp [visit] at hw
  | some k =>
    rw [show stat (St.mk w []).world.fs inputDir = some k from hroot] at hw
    simp only at hw
    refine ⟨⟨k, rfl⟩, fun relPath c hf hi => ?_⟩
    cases k with
    | dir =>
      have hstep : ∀ p d e s s1,
          (fun s : St => CacheOk s ∧ stat s.world.fs inputDir = some .dir) s →
          visit inputDir outputDir p d e s = (s1, none) →
          (fun s : St => CacheOk s ∧ stat s.world.fs inputDir = some .dir) s1 :=
        fun p d e s s1 hI hv => (step_dir inputDir outputDir p d e s s1 hI.1 hI.2 hv).1
      have hcov := walkDir_covers inputDir outputDir _ (Recorded inputDir outputDir) hstep
        (fun p d s s1 _ hI hv hd _ => step_records inputDir outputDir p d s s1 hI.1 hv hd)
        (fun p d e s s1 q hI hv hp => step_recorded inputDir outputDir p d e s s1 q hI hv hp)
        fuel inputDir _ ⟨w, []⟩ s1 hw ⟨cacheOk_nil w, hroot⟩ ⟨.dir, hroot, by simp⟩ relPath c hf
      exact hcov relPath ((filepathRel_eq_some _ _ _).2 rfl) hi
    | file c0 =>
      have hrnil : relPath = [] := by
        cases hr : relPath with
        | nil => rfl
        | cons x r =>
          rw [hr, stat_below_file _ inputDir c0 x r hroot] at hf
          cases hf
      subst hrnil
      rw [List.append_nil] at hi
      cases fuel with
      | zero => simp [walkDir] at hw
      | succ fuel =>
        rw [walkDir] at hw
        cases hv : visit inputDir outputDir inputDir (some ⟨filepathBase inputDir,
            decide (Kind.file c0 = Kind.dir)⟩) none ⟨w, []⟩ with
        | mk sa ra =>
          rw [hv] at hw
          cases ra with
          | some e => cases hw
          | none =>
            have hdec : decide (Kind.file c0 = Kind.dir) = false := by simp
            simp only [hdec, Bool.not_false, if_true, Option.some.injEq, Prod.mk.injEq,
              and_true] at hw
            subst hw
            exact step_records inputDir outputDir inputDir _ _ _ (cacheOk_nil w) hv
              (by simp) [] ((filepathRel_eq_some _ _ _).2 (by simp)) hi

/-! ## Runs return -/

/-- C4, as stated, fails: `copyFile` from a path to the same path returns no error and
leaves the file empty, so the destination does not hold the bytes that the source held
before the call and the content of the source has changed. -/
theorem copyFile_same_path_counterexample :
    (copyFile ["photo.jpg"] ["photo.jpg"] photoWorld).2 = none ∧
      stat photoWorld.fs ["photo.jpg"] = some (.file (.raw [7, 7, 7])) ∧
      stat (copyFile ["photo.jpg"] ["photo.jpg"] photoWorld).1.fs ["photo.jpg"] =
        some (.file (.raw [])) := by
  decide

/-- C4, amended: when `copyFile src dst` returns no error and `src` and `dst` are different
paths, the source was a regular file, the destination is afterwards a regular file with the
content that the source had before the call, and the source still has that content. -/
theorem copyFile_copies (src dst : Path) (w w1 : World) (hne : src ≠ dst)
    (h : copyFile src dst w = (w1, none)) :
    ∃ c, stat w.fs src = some (.file c) ∧ stat w1.fs dst = some (.file c) ∧
      stat w1.fs src = some (.file c) := by
  obtain ⟨c, h1, h2⟩ := copyFile_ok src dst w w1 h
  refine ⟨c, h1, by simpa [hne] using h2, ?_⟩
  rw [copyFile_frame src dst w w1 none src h hne]
  exact h1

/-- Witness of `copyFile_copies`: the copy of `in/a.jpg` to `in/copy.jpg` in the sample
world. -/
theorem copyFile_copies_witness :
    ∃ c, stat sampleWorld.fs ["in", "a.jpg"] = some (.file c) ∧
      stat (copyFile ["in", "a.jpg"] ["in", "copy.jpg"] sampleWorld).1.fs ["in", "copy.jpg"] =
        some (.file c) ∧
      stat (copyFile ["in", "a.jpg"] ["in", "copy.jpg"] sampleWorld).1.fs ["in", "a.jpg"] =
        some (.file c) :=
  copyFile_copies ["in", "a.jpg"] ["in", "copy.jpg"] sampleWorld _ (by decide) (by rfl)

/-! ## C6: the skip rule -/

/-- C6. In every state that a run can be in, the callback on an image file whose
destination base name is recorded in the store of its destination directory returns no
error, prints the line `[Skipped] <relative path> (already in DB)`, calls neither
`copyFile` nor `registerFileInDB` and leaves the file system, hence every output file and
every store, as it is.  Nothing is assumed on the destination path: the rule holds as well
when no file is there. -/
theorem skip_rule (inputDir outputDir path relPath : Path) (d : DirEntry) (w0 : World)
    (s : St) (names : List String)
    (hreach : Reach (visit inputDir outputDir) ⟨w0, []⟩ s)
    (hd : d.isDir = false) (hi : isImage (pathString path) = true)
    (hr : filepathRel inputDir path = some relPath)
    (hl : stat s.world.fs
      (filepathJoin (filepathDir (filepathJoin outputDir relPath)) ["igcopy.db"]) =
        some (.file (.ledger names)))
    (hm : filepathBase (filepathJoin outputDir relPath) ∈ names) :
    ∃ s1, visit inputDir outputDir path (some d) none s = (s1, none) ∧
      s1.world.stdout =
        s.world.stdout ++ ["[Skipped] " ++ pathString relPath ++ " (already in DB)"] ∧
      s1.world.copyCalls = s.world.copyCalls ∧ s1.world.inserts = s.world.inserts ∧
      s1.world.fs = s.world.fs := by
  have hc : CacheOk s := reach_cacheOk inputDir outputDir _ s hreach (cacheOk_nil w0)
  obtain ⟨s1, h1, h2, h3, h4, h5, -⟩ :=
    processFile_recorded outputDir path relPath s names hc hl hm
  exact ⟨s1, by rw [visit_eligible inputDir outputDir path relPath d s hd hi hr]; exact h1,
    h2, h3, h4, h5⟩

/-- Witness of `skip_rule`: `in/a.jpg` is skipped in a world where the store of `out`
records `a.jpg` and `out/a.jpg` does not exist. -/
theorem skip_rule_witness :
    stat recordedWorld.fs ["out", "a.jpg"] = none ∧
    ∃ s1, visit ["in"] ["out"] ["in", "a.jpg"] (some ⟨"a.jpg", false⟩) none
        ⟨recordedWorld, []⟩ = (s1, none) ∧
      s1.world.stdout = recordedWorld.stdout ++ ["[Skipped] a.jpg (already in DB)"] ∧
      s1.world.copyCalls = recordedWorld.copyCalls ∧
      s1.world.inserts = recordedWorld.inserts ∧
      s1.world.fs = recordedWorld.fs :=
  ⟨by decide,
    skip_rule ["in"] ["out"] ["in", "a.jpg"] ["a.jpg"] ⟨"a.jpg", false⟩ recordedWorld
      ⟨recordedWorld, []⟩ ["a.jpg"] (Reach.refl _) rfl (by decide) (by decide) (by decide)
      (by decide)⟩

/-! ## C7: directories and files that are not images -/

/-- C7. On a directory entry and on a file that `isImage` rejects the callback returns no
error and leaves the whole state as it is: no file, no directory and no store is created.
Consequently, when no regular file under the input root is an image, a run returns (for
every fuel above the depth of the tree), and every run that returns leaves the world
exactly as it was; it returns no error when the input root exists. -/
theorem non_image_untouched (inputDir outputDir : Path) :
    (∀ (path : Path) (d : DirEntry) (s : St),
      d.isDir = true ∨ isImage (pathString path) = false →
      visit inputDir outputDir path (some d) none s = (s, none)) ∧
    ∀ w : World,
      (∀ q c, stat w.fs (inputDir ++ q) = some (.file c) →
        isImage (pathString (inputDir ++ q)) = false) →
      (∃ fuel r, run inputDir outputDir fuel w = some (w, r)) ∧
      ∀ fuel w1 r, run inputDir outputDir fuel w = some (w1, r) →
        w1 = w ∧ (stat w.fs inputDir ≠ none → r = none) := by
  refine ⟨fun path d s h => visit_skip inputDir outputDir path d s h, ?_⟩
  intro w hno
  have hex : ∃ fuel, run inputDir outputDir fuel w =
      some (w, if stat w.fs inputDir = none then some (.walk .notExist) else none) := by
    cases hs : stat w.fs inputDir with
    | none =>
      exact ⟨0, by simp [run, filepathWalkDir, hs, visit, closeAll]⟩
    | some k =>
      obtain ⟨n, hn⟩ := exists_depth_below w.fs inputDir
      obtain ⟨s1, h1, h2, -⟩ := walkDir_static (visit inputDir outputDir) w.fs
        (fun s => s = ⟨w, []⟩) inputDir
        (fun q d s k1 hI _ hk1 hd1 => by
          subst hI
          refine ⟨_, visit_skip inputDir outputDir _ d _ ?_, rfl, rfl⟩
          by_cases hdir : d.isDir = true
          · exact Or.inl hdir
          · right
            cases k1 with
            | dir => exact absurd (hd1.2 rfl) hdir
            | file c => exact hno q c hk1)
        n [] ⟨filepathBase inputDir, decide (k = .dir)⟩ ⟨w, []⟩ k
        (fun r hr => hn r (by simpa using hr)) rfl rfl (by simpa using hs) (by simp)
      subst h2
      refine ⟨n, ?_⟩
      simp only [List.append_nil] at h1
      simp [run, filepathWalkDir, hs, h1, closeAll]
  obtain ⟨fuel0, h0⟩ := hex
  refine ⟨⟨fuel0, _, h0⟩, ?_⟩
  intro fuel w1 r h
  have e1 := run_fuel_le inputDir outputDir fuel (max fuel fuel0) (le_max_left _ _) w _ h
  have e2 := run_fuel_le inputDir outputDir fuel0 (max fuel fuel0) (le_max_right _ _) w _ h0
  rw [e1] at e2
  simp only [Option.some.injEq, Prod.mk.injEq] at e2
  obtain ⟨h1, h2⟩ := e2
  refine ⟨h1, fun hne => ?_⟩
  rw [h2]
  simp [hne]

/-- Witness of `non_image_untouched`: the run over `in`, which holds `notes.txt` only. -/
theorem non_image_untouched_witness :
    (∃ fuel r, run ["in"] ["out"] fuel notesWorld = some (notesWorld, r)) ∧
    ∀ fuel w1 r, run ["in"] ["out"] fuel notesWorld = some (w1, r) →
      w1 = notesWorld ∧ (stat notesWorld.fs ["in"] ≠ none → r = none) :=
  (non_image_untouched ["in"] ["out"]).2 notesWorld (by
    intro q c h
    cases q with
    | nil => simp [notesWorld, notesFs, stat, Node.get, findKid, Node.kind] at h
    | cons x r =>
      by_cases hx : x = "notes.txt"
      · subst hx
        cases r with
        | nil => decide
        | cons y r => simp [notesWorld, notesFs, stat, Node.get, findKid] at h
      · have hx2 : ¬ "notes.txt" = x := fun e => hx e.symm
        simp [notesWorld, notesFs, stat, Node.get, findKid, hx2] at h)

/-! ## C9: the cache of store handles -/

/-- C9. In every run that returns, with or without an error: the handles opened during the
run are handles of store files `igcopy.db` of directories, no store file is opened twice,
and the handles closed during the run are exactly the handles opened during the run, each
of them closed once. -/
theorem ledger_cache (inputDir outputDir : Path) (fuel : Nat) (w w1 : World)
    (r : Option Error) (h : run inputDir outputDir fuel w = some (w1, r)) :
    ∃ os cs, w1.opened = w.opened ++ os ∧ w1.closed = w.closed ++ cs ∧
      (os.map Handle.path).Nodup ∧
      (∀ h ∈ os, ∃ d, h.path = filepathJoin d ["igcopy.db"]) ∧
      cs.Perm os ∧ ∀ h ∈ os, cs.count h = 1 := by
  obtain ⟨s1, hw, rfl⟩ := run_eq inputDir outputDir fuel w w1 r h
  have ht := filepathWalkDir_trace _ _ _ _ _ _ hw
  obtain ⟨extra, h1, h2, h3, h4⟩ := trace_books w inputDir outputDir _ s1 r ht (books_init w)
  have hperm : (extra ++ s1.dbs.map Prod.snd).Perm (s1.dbs.map Prod.snd ++ extra) :=
    List.perm_append_comm
  refine ⟨s1.dbs.map Prod.snd ++ extra, extra ++ s1.dbs.map Prod.snd, ?_, ?_, h3, h4, hperm,
    ?_⟩
  · rw [closeAll_eq]
    exact h1
  · rw [closeAll_eq]
    simp only [h2, List.append_assoc]
  · intro h hh
    rw [hperm.count_eq]
    exact List.count_eq_one_of_mem (List.Nodup.of_map _ h3) hh

/-- Witness of `ledger_cache`: the run over the sample tree, which opens the stores of `out`
and of `out/sub`. -/
theorem ledger_cache_witness :
    ∃ w1 r, run ["in"] ["out"] 3 sampleWorld = some (w1, r) ∧
      ∃ os cs, w1.opened = sampleWorld.opened ++ os ∧ w1.closed = sampleWorld.closed ++ cs ∧
        (os.map Handle.path).Nodup ∧
        (∀ h ∈ os, ∃ d, h.path = filepathJoin d ["igcopy.db"]) ∧
        cs.Perm os ∧ ∀ h ∈ os, cs.count h = 1 :=
  ⟨_, _, rfl, ledger_cache ["in"] ["out"] 3 sampleWorld _ _ rfl⟩

/-! ## C8: what is registered, and where -/

/-- C8, as stated, fails when the input root is itself an image file: the relative path is
`.`, the destination path is the output root, and the name registered is the base name of
the output root (`out`), not the base name of the source file (`photo.jpg`); it is
registered in the store next to the output root (`igcopy.db`), and there is no store in
the directory `out` joined with the parent of the relative path. -/
theorem registered_name_counterexample :
    (run ["photo.jpg"] ["out"] 1 photoWorld).map
        (fun x => (x.1.copyCalls, x.1.inserts, x.2)) =
      some ([(["photo.jpg"], ["out"])], [⟨["igcopy.db"], "out", false⟩], none) ∧
    filepathBase ["photo.jpg"] = "photo.jpg" ∧
    filepathRel ["photo.jpg"] ["photo.jpg"] = some [] ∧
    (run ["photo.jpg"] ["out"] 1 photoWorld).map
        (fun x => (stat x.1.fs (filepathJoin (filepathJoin ["out"] (filepathDir [])) ["igcopy.db"]),
          stat x.1.fs ["igcopy.db"])) =
      some (none, some (.file (.ledger ["out"]))) := by
  decide

/-- C8, amended: in every state that a run can be in, when the callback copies an image
file that lies strictly below the input root (its relative path is not `.`), it calls
`copyFile` once, from the file to the mirrored path, and `registerFileInDB` once, with the
base name of the source file on the store of the output root joined with the parent of the
relative path; that name was not in the store and is afterwards its last name; and the
store of every other directory is a database with given names after the call exactly when
it was before. -/
theorem registered_name (inputDir outputDir path relPath : Path) (d : DirEntry) (w0 : World)
    (s s1 : St) (hreach : Reach (visit inputDir outputDir) ⟨w0, []⟩ s)
    (hd : d.isDir = false) (hi : isImage (pathString path) = true)
    (hr : filepathRel inputDir path = some relPath) (hne : relPath ≠ [])
    (hv : visit inputDir outputDir path (some d) none s = (s1, none))
    (hcopy : s1.world.copyCalls ≠ s.world.copyCalls) :
    s1.world.copyCalls = s.world.copyCalls ++ [(path, filepathJoin outputDir relPath)] ∧
    s1.world.inserts = s.world.inserts ++
      [⟨filepathJoin (filepathJoin outputDir (filepathDir relPath)) ["igcopy.db"],
        filepathBase path, false⟩] ∧
    (∃ names, filepathBase path ∉ names ∧
      stat s1.world.fs (filepathJoin (filepathJoin outputDir (filepathDir relPath))
        ["igcopy.db"]) = some (.file (.ledger (names ++ [filepathBase path])))) ∧
    ∀ dir names, dir ≠ filepathJoin outputDir (filepathDir relPath) →
      (stat s1.world.fs (filepathJoin dir ["igcopy.db"]) = some (.file (.ledger names)) ↔
        stat s.world.fs (filepathJoin dir ["igcopy.db"]) = some (.file (.ledger names))) := by
  have hc : CacheOk s := reach_cacheOk inputDir outputDir _ s hreach (cacheOk_nil w0)
  rw [visit_eligible inputDir outputDir path relPath d s hd hi hr] at hv
  have hpath : path = inputDir ++ relPath := (filepathRel_eq_some _ _ _).1 hr
  have hpne : path ≠ [] := by
    rw [hpath]
    simp [hne]
  have hbase : filepathBase (filepathJoin outputDir relPath) = filepathBase path := by
    rw [hpath, filepathJoin, filepathBase_append _ _ hne, filepathBase_append _ _ hne]
  have hdir : filepathDir (filepathJoin outputDir relPath) =
      filepathJoin outputDir (filepathDir relPath) := by
    simp only [filepathJoin]
    exact filepathDir_append _ _ hne
  have hdest : filepathJoin outputDir relPath ≠ [] := by
    simp [filepathJoin, hne]
  have hbne : filepathBase (filepathJoin outputDir relPath) ≠ "igcopy.db" := by
    rw [hbase]
    exact image_base_ne_db path hpne hi
  obtain ⟨s2, db, names, g1, g2, g3, g4, g5, g6, g7, g8, g9, g10⟩ :=
    processFile_ok outputDir path relPath s s1 hc hv
  rcases g10 with ⟨-, hskip⟩ | ⟨hnot, w4, hcp, hrg⟩
  · exfalso
    apply hcopy
    rw [hskip, ← g3]
    rfl
  · have hnedb : ∀ x : Path, filepathJoin outputDir relPath ≠ filepathJoin x ["igcopy.db"] := by
      intro x e
      apply hbne
      rw [e, filepathJoin, filepathBase_append _ _ (by simp)]
      rfl
    obtain ⟨-, ⟨c, -, hfs⟩, -, k2, k3, -, -⟩ :=
      copy_branch path (filepathJoin outputDir relPath) _ _ db s2.world w4 s1.world names
        (by rw [g1]; exact hnedb _) g8 hcp hrg
    rw [g1, hdir, hbase] at k3
    rw [hbase] at hnot
    refine ⟨by rw [k2, g3], by rw [k3, g4], ⟨names, hnot, ?_⟩, ?_⟩
    · rw [hfs, g1, hdir, hbase]
      simp
    · intro dir ns hdne
      have hq1 : filepathJoin dir ["igcopy.db"] ≠ db.path := by
        rw [g1, hdir]
        intro e
        apply hdne
        simp only [filepathJoin] at e ⊢
        exact List.append_cancel_right e
      have hq2 : filepathJoin dir ["igcopy.db"] ≠ filepathJoin outputDir relPath :=
        fun e => hnedb dir e.symm
      rw [hfs, if_neg hq1, if_neg hq2, g7 _ (by rw [← g1]; exact hq1)]
      constructor
      · intro h1
        split at h1
        · cases h1
        · exact h1
      · intro h1
        simp [h1]

/-- Witness of `registered_name`: the first call of the callback on `in/a.jpg` in the sample
world registers `a.jpg` in the store of `out`. -/
theorem registered_name_witness :
    (visit ["in"] ["out"] ["in", "a.jpg"] (some ⟨"a.jpg", false⟩) none
        ⟨sampleWorld, []⟩).1.world.copyCalls =
      sampleWorld.copyCalls ++ [(["in", "a.jpg"], filepathJoin ["out"] ["a.jpg"])] ∧
    (visit ["in"] ["out"] ["in", "a.jpg"] (some ⟨"a.jpg", false⟩) none
        ⟨sampleWorld, []⟩).1.world.inserts =
      sampleWorld.inserts ++
        [⟨filepathJoin (filepathJoin ["out"] (filepathDir ["a.jpg"])) ["igcopy.db"],
          filepathBase ["in", "a.jpg"], false⟩] ∧
    (∃ names, filepathBase ["in", "a.jpg"] ∉ names ∧
      stat (visit ["in"] ["out"] ["in", "a.jpg"] (some ⟨"a.jpg", false⟩) none
          ⟨sampleWorld, []⟩).1.world.fs
        (filepathJoin (filepathJoin ["out"] (filepathDir ["a.jpg"])) ["igcopy.db"]) =
        some (.file (.ledger (names ++ [filepathBase ["in", "a.jpg"]])))) ∧
    ∀ dir names, dir ≠ filepathJoin ["out"] (filepathDir ["a.jpg"]) →
      (stat (visit ["in"] ["out"] ["in", "a.jpg"] (some ⟨"a.jpg", false⟩) none
          ⟨sampleWorld, []⟩).1.world.fs (filepathJoin dir ["igcopy.db"]) =
          some (.file (.ledger names)) ↔
        stat sampleWorld.fs (filepathJoin dir ["igcopy.db"]) =
          some (.file (.ledger names))) :=
  registered_name ["in"] ["out"] ["in", "a.jpg"] ["a.jpg"] ⟨"a.jpg", false⟩ sampleWorld
    ⟨sampleWorld, []⟩ _ (Reach.refl _) rfl (by decide) (by decide) (by decide) rfl
    (by decide)

/-! ## C10: no insertion of a recorded name -/

/-- C1, as stated, fails for a starting state in which the store of the destination
directory records the name while no copy exists: the run returns no error, skips
`in/a.jpg` and leaves `out/a.jpg` missing. -/
theorem mirrored_copy_counterexample :
    (run ["in"] ["out"] 2 recordedWorld).map
        (fun x => (x.2, stat x.1.fs (filepathJoin ["out"] ["a.jpg"]), x.1.stdout)) =
      some (none, none, ["[Skipped] a.jpg (already in DB)"]) ∧
    stat recordedWorld.fs ["in", "a.jpg"] = some (.file (.raw [1, 2])) ∧
    isImage (pathString ["in", "a.jpg"]) = true ∧
    filepathRel ["in"] ["in", "a.jpg"] = some ["a.jpg"] := by
  decide

/-- C1 also needs the two roots to be apart: with the output root equal to the input root
the copy of a file onto itself empties it. -/
theorem mirrored_copy_same_root :
    (run ["in"] ["in"] 3 sampleWorld).map
        (fun x => (x.2, stat x.1.fs ["in", "a.jpg"])) =
      some (none, some (.file (.raw []))) ∧
    stat sampleWorld.fs ["in", "a.jpg"] = some (.file (.raw [1, 2])) := by
  decide

/-- C1, amended: when neither of the input root and the output root lies under the other
and `run` returns without error, then for every regular file at or under the input root
that `isImage` accepts and whose destination base name was not recorded in the store of its
destination directory when the run began, the mirrored path
`Join(outputDir, Rel(inputDir, path))` holds a regular file with the content of the source
file, and the source file is as it was.  (For the input root itself, the mirrored path, which
is the output root, must not be the store file of its directory.) -/
theorem mirrored_copy (inputDir outputDir : Path) (fuel : Nat) (w w1 : World)
    (hd1 : ¬ inputDir <+: outputDir) (hd2 : ¬ outputDir <+: inputDir)
    (h : run inputDir outputDir fuel w = some (w1, none))
    (path relPath : Path) (c : Content)
    (hrel : filepathRel inputDir path = some relPath)
    (hfile : stat w.fs path = some (.file c))
    (himg : isImage (pathString path) = true)
    (hnot : ∀ names, stat w.fs (dbPath outputDir relPath) = some (.file (.ledger names)) →
      fileName outputDir relPath ∉ names)
    (hdest : relPath = [] → destPath outputDir relPath ≠ dbPath outputDir relPath) :
    stat w1.fs (filepathJoin outputDir relPath) = some (.file c) ∧
      stat w1.fs path = some (.file c) := by
  obtain ⟨s1, hw, rfl⟩ := run_eq inputDir outputDir fuel w w1 none h
  rw [closeAll_eq]
  simp only
  have hpath : path = inputDir ++ relPath := (filepathRel_eq_some _ _ _).1 hrel
  unfold filepathWalkDir at hw
  cases hroot : stat w.fs inputDir with
  | none =>
    rw [show stat (St.mk w []).world.fs inputDir = none from hroot] at hw
    simp [visit] at hw
  | some k =>
    rw [show stat (St.mk w []).world.fs inputDir = some k from hroot] at hw
    simp only at hw
    cases k with
    | dir =>
      have hne : relPath ≠ [] := by
        intro e
        subst e
        rw [hpath, List.append_nil, hroot] at hfile
        cases hfile
      have hI0 : (fun s => (CacheOk s ∧ InputKept inputDir w s) ∧
          Mirrored inputDir outputDir w s) ⟨w, []⟩ := by
        refine ⟨⟨cacheOk_nil w, fun q => rfl⟩, ?_⟩
        intro rel c1 n1 _ _ _ hl1 hm1
        exact Or.inl ⟨n1, hl1, hm1⟩
      have hstep : ∀ p d e s s1,
          (fun s => (CacheOk s ∧ InputKept inputDir w s) ∧ Mirrored inputDir outputDir w s) s →
          visit inputDir outputDir p d e s = (s1, none) →
          (fun s => (CacheOk s ∧ InputKept inputDir w s) ∧
            Mirrored inputDir outputDir w s) s1 :=
        fun p d e s s1 hI hv =>
          ⟨step_inputKept inputDir outputDir hd1 hd2 w hroot p d e s s1 hI.1 hv,
            step_mirrored inputDir outputDir hd1 hd2 w hroot p d e s s1 hI.1 hv hI.2⟩
      have hcov := walkDir_covers inputDir outputDir _ (Recorded inputDir outputDir) hstep
        (fun p d s s1 _ hI hv hd _ => step_records inputDir outputDir p d s s1 hI.1.1 hv hd)
        (fun p d e s s1 q hI hv hp =>
          step_recorded inputDir outputDir p d e s s1 q
            ⟨hI.1.1, by
              have := hI.1.2 []
              simp only [List.append_nil] at this
              rw [this]
              exact hroot⟩ hv hp)
        fuel inputDir _ ⟨w, []⟩ s1 hw hI0 ⟨.dir, hroot, by simp⟩ relPath c
        (by rw [← hpath]; exact hfile)
      have hI1 := reach_inv _ _ hstep _ _ (walkDir_trace _ _ _ _ _ _ _ hw) hI0
      obtain ⟨names, hl, hm⟩ := hcov relPath (by rw [← hpath]; exact hrel)
        (by rw [← hpath]; exact himg)
      refine ⟨?_, ?_⟩
      · rcases hI1.2 relPath c names hne (by rw [← hpath]; exact hfile)
          (by rw [← hpath]; exact himg) hl hm with ⟨n0, h1, h2⟩ | h1
        · exact absurd h2 (hnot n0 h1)
        · exact h1
      · rw [hpath, hI1.1.2 relPath, ← hpath]
        exact hfile
    | file c0 =>
      have hrnil : relPath = [] := by
        cases hr : relPath with
        | nil => rfl
        | cons x r =>
          rw [hpath, hr, stat_below_file _ inputDir c0 x r hroot] at hfile
          cases hfile
      subst hrnil
      rw [List.append_nil] at hpath
      subst hpath
      cases fuel with
      | zero => simp [walkDir] at hw
      | succ fuel =>
        rw [walkDir] at hw
        cases hf : visit path outputDir path (some ⟨filepathBase path,
            decide (Kind.file c0 = Kind.dir)⟩) none ⟨w, []⟩ with
        | mk sa ra =>
          rw [hf] at hw
          cases ra with
          | some e => cases hw
          | none =>
            have hdec : decide (Kind.file c0 = Kind.dir) = false := by simp
            simp only [hdec, Bool.not_false, if_true, Option.some.injEq, Prod.mk.injEq,
              and_true] at hw
            subst hw
            rw [visit_eligible path outputDir path [] _ _ (by simp) himg hrel] at hf
            obtain ⟨-, names, hn, hcase⟩ :=
              processFile_fs outputDir path [] ⟨w, []⟩ sa (cacheOk_nil w) himg hf
            rcases hcase with ⟨hm, -⟩ | ⟨-, c1, hsrc, hF⟩
            · exfalso
              rcases hn with h1 | ⟨-, h1⟩
              · exact hnot names h1 hm
              · subst h1
                simp at hm
            · have hcc : c1 = c := by
                have : stat w.fs path = some (.file c1) := hsrc
                rw [hfile] at this
                simpa using this.symm
              subst hcc
              have hF2 := hF (hdest rfl)
              have hpd : path ≠ destPath outputDir [] := by
                have := disjoint_ne path outputDir hd1 hd2 [] []
                simpa [destPath, filepathJoin] using this
              refine ⟨?_, ?_⟩
              · have := hF2 (destPath outputDir [])
                rw [if_neg (hdest rfl), if_pos rfl, if_neg hpd] at this
                exact this
              · have := hF2 path
                rw [if_neg (image_ne_db path _ himg), if_neg hpd] at this
                rw [this]
                have h3 : ¬ (stat (St.mk w []).world.fs path = none ∧
                    path <+: destDir outputDir []) := by
                  rintro ⟨h4, -⟩
                  have : stat w.fs path = none := h4
                  rw [hfile] at this
                  cases this
                rw [if_neg h3]
                exact hfile

/-- Witness of `mirrored_copy`: after the run over the sample tree, `out/sub/b.png` holds
the content of `in/sub/b.png`. -/
theorem mirrored_copy_witness :
    ∃ w1, run ["in"] ["out"] 3 sampleWorld = some (w1, none) ∧
      stat w1.fs (filepathJoin ["out"] ["sub", "b.png"]) = some (.file (.raw [3])) ∧
      stat w1.fs ["in", "sub", "b.png"] = some (.file (.raw [3])) :=
  ⟨_, rfl, mirrored_copy ["in"] ["out"] 3 sampleWorld _ (by decide) (by decide) rfl
    ["in", "sub", "b.png"] ["sub", "b.png"] (.raw [3]) (by decide) (by decide) (by decide)
    (fun names hn => by
      have : stat sampleWorld.fs (dbPath ["out"] ["sub", "b.png"]) = none := by decide
      rw [this] at hn
      cases hn)
    (fun hr => by cases hr)⟩

/-! ## C2: idempotence -/

/-- A run that returns no error leaves the tree under the input root as it was, when the
input root is a directory and neither root lies under the other. -/
theorem run_keeps_input (inputDir outputDir : Path) (fuel : Nat) (w w1 : World)
    (hd1 : ¬ inputDir <+: outputDir) (hd2 : ¬ outputDir <+: inputDir)
    (hroot : stat w.fs inputDir = some .dir)
    (h : run inputDir outputDir fuel w = some (w1, none)) :
    ∀ q, stat w1.fs (inputDir ++ q) = stat w.fs (inputDir ++ q) := by
  obtain ⟨s1, hw, rfl⟩ := run_eq inputDir outputDir fuel w w1 none h
  rw [closeAll_eq]
  simp only
  have ht := filepathWalkDir_trace _ _ _ _ _ _ hw
  have hI := reach_inv (visit inputDir outputDir)
    (fun s => CacheOk s ∧ InputKept inputDir w s)
    (fun p d e s s1 hI hv => step_inputKept inputDir outputDir hd1 hd2 w hroot p d e s s1 hI hv)
    _ _ ht ⟨cacheOk_nil w, fun q => rfl⟩
  exact hI.2

/-- C2. When a first run returns without error and has left the tree under the input root
as it was, a second run with the same roots returns without error (with enough fuel), and
every second run that returns has returned no error, has called neither `copyFile` nor
`registerFileInDB`, has left the file system, hence every output file and every store,
exactly as the first run left it, and has printed skip lines only, among them the line
`[Skipped] <relative path> (already in DB)` of every image at or under the input root. -/
theorem idempotent (inputDir outputDir : Path) (fuel : Nat) (w0 w1 : World)
    (h1 : run inputDir outputDir fuel w0 = some (w1, none))
    (hkeep : ∀ q, stat w1.fs (inputDir ++ q) = stat w0.fs (inputDir ++ q)) :
    (∃ fuel2 w2, run inputDir outputDir fuel2 w1 = some (w2, none)) ∧
    ∀ fuel2 w2 r2, run inputDir outputDir fuel2 w1 = some (w2, r2) →
      r2 = none ∧ w2.copyCalls = w1.copyCalls ∧ w2.inserts = w1.inserts ∧ w2.fs = w1.fs ∧
      ∃ lines, w2.stdout = w1.stdout ++ lines ∧
        (∀ l, l ∈ lines → ∃ relPath, l = skipLine relPath) ∧
        ∀ relPath c, stat w1.fs (inputDir ++ relPath) = some (.file c) →
          isImage (pathString (inputDir ++ relPath)) = true → skipLine relPath ∈ lines := by
  obtain ⟨⟨k, hk⟩, hrec⟩ := run_records inputDir outputDir fuel w0 w1 h1
  have hall : AllRecorded inputDir outputDir w1.fs := by
    intro relPath c hf hi
    rw [hkeep] at hf
    exact hrec relPath c hf hi
  have hroot : stat w1.fs inputDir = some k := by
    have := hkeep []
    simp only [List.append_nil] at this
    rw [this]
    exact hk
  obtain ⟨fuelb, s2, hwalk, hq, hlines⟩ := quiet_walk inputDir outputDir w1 k hall hroot
  obtain ⟨hc, hfs, hcp, hin, lines, hst, hform⟩ := hq
  have hbig : run inputDir outputDir fuelb w1 = some (closeAll s2.dbs s2.world, none) := by
    simp only [run, hwalk]
  refine ⟨⟨fuelb, _, hbig⟩, ?_⟩
  intro fuel2 w2 r2 h2
  have e1 := run_fuel_le inputDir outputDir fuel2 (max fuel2 fuelb) (le_max_left _ _) w1 _ h2
  have e2 := run_fuel_le inputDir outputDir fuelb (max fuel2 fuelb) (le_max_right _ _) w1 _ hbig
  rw [e1] at e2
  simp only [Option.some.injEq, Prod.mk.injEq] at e2
  obtain ⟨e3, e4⟩ := e2
  subst e3
  subst e4
  rw [closeAll_eq]
  refine ⟨rfl, hcp, hin, hfs, lines, hst, hform, ?_⟩
  intro relPath c hf hi
  obtain ⟨l2, hl2, hm2⟩ := hlines relPath c hf hi
  have : lines = l2 := by
    have e : w1.stdout ++ lines = w1.stdout ++ l2 := by rw [← hst, ← hl2]
    exact List.append_cancel_left e
  rw [this]
  exact hm2

/-- Witness of `idempotent`: the second run over the sample tree skips `a.jpg` and
`sub/b.png`. -/
theorem idempotent_witness :
    ∃ w1, run ["in"] ["out"] 3 sampleWorld = some (w1, none) ∧
      ((∃ fuel2 w2, run ["in"] ["out"] fuel2 w1 = some (w2, none)) ∧
      ∀ fuel2 w2 r2, run ["in"] ["out"] fuel2 w1 = some (w2, r2) →
        r2 = none ∧ w2.copyCalls = w1.copyCalls ∧ w2.inserts = w1.inserts ∧ w2.fs = w1.fs ∧
        ∃ lines, w2.stdout = w1.stdout ++ lines ∧
          (∀ l, l ∈ lines → ∃ relPath, l = skipLine relPath) ∧
          ∀ relPath c, stat w1.fs (["in"] ++ relPath) = some (.file c) →
            isImage (pathString (["in"] ++ relPath)) = true → skipLine relPath ∈ lines) :=
  ⟨_, rfl, idempotent ["in"] ["out"] 3 sampleWorld _ rfl
    (run_keeps_input ["in"] ["out"] 3 sampleWorld _ (by decide) (by decide) (by decide) rfl)⟩

end Igcopy
